import Mathlib

/-!
Shallow embedding of clang's statement-to-CFG lowering (`clang/CodeGen/CGStmt.cpp`):
`EmitStmt`, `EmitCompoundStmt`, `EmitBlock`, `EmitLabelStmt`, `EmitGotoStmt`,
`EmitIfStmt`, `EmitReturnStmt`, together with the pieces of lowering state they
act on (the function's basic-block list, the builder's insertion block, and the
label table).  Basic blocks are identified by the `Nat` at which they were
allocated; the store maps every identifier to the block's name and instruction
list.  Collaborators that live outside `CGStmt.cpp` (`getBasicBlockForLabel`,
`EmitExpr`, `EvaluateScalarValueToBool`) are modelled from the specification and
carry a doc comment saying so.
-/

set_option linter.unusedVariables false

/-- A value carried by a `ret` instruction: `llvm::UndefValue` or a scalar. -/
inductive RVal where
  | undef
  | scalar (n : Nat)
  deriving DecidableEq

/-- The instructions the lowering in `CGStmt.cpp` can place into a block:
branches, conditional branches, returns, and the opaque non-terminator
instructions produced by expression evaluation. -/
inductive Instr where
  | br (dest : Nat)
  | condbr (cond : Nat) (tdest : Nat) (fdest : Nat)
  | retVoid
  | ret (v : RVal)
  | eval (payload : Nat)
  deriving DecidableEq

/-- `llvm::TerminatorInst` classification. -/
def Instr.isTerminator : Instr → Bool
  | .br _ => true
  | .condbr _ _ _ => true
  | .retVoid => true
  | .ret _ => true
  | .eval _ => false

/-- The contents of one `llvm::BasicBlock`: its name (`getValueName() == 0`
iff the name is empty) and its instruction list. -/
structure BlockData where
  name : String
  instrs : List Instr
  deriving DecidableEq

/-- `BasicBlock::getTerminator()`: the last instruction if it is a terminator,
otherwise none. -/
def BlockData.getTerminator (b : BlockData) : Option Instr :=
  match b.instrs.getLast? with
  | some i => if i.isTerminator then some i else none
  | none => none

/-- The result of expression evaluation (`ExprResult`): scalar-or-aggregate
tag and an opaque payload. -/
structure ExprResult where
  isScalar : Bool
  val : Nat
  deriving DecidableEq

/-- An expression node, opaque to statement lowering: all that matters here is
whether its evaluation yields a scalar and an opaque payload identifying it. -/
structure Expr where
  scalarResult : Bool
  payload : Nat
  deriving DecidableEq

/-- A statement tree node, the kinds dispatched by `EmitStmt`. -/
inductive Stmt where
  | null
  | compound (body : List Stmt)
  | label (l : Nat) (sub : Stmt)
  | goto (l : Nat)
  | ifS (cond : Expr) (thenS : Stmt) (elseS : Option Stmt)
  | ret (rv : Option Expr)
  | exprS (e : Expr)
  | other (tag : Nat)

/-- The one failure of this lowering:
`assert(0 && "FIXME: aggregate return unimp")` in `EmitReturnStmt`. -/
inductive LErr where
  | aggregateReturnUnimp
  deriving DecidableEq

/-- The per-function lowering state (`CodeGenFunction`): the function's ordered
basic-block list (`CurFn->getBasicBlockList()`), the arena of all allocated
blocks, the builder's insertion block, the label table, the next free block
identifier, the declared-type information consulted by return lowering, and the
diagnostics stream used by the dispatcher's unimplemented case. -/
structure CGState where
  blocks : List Nat
  store : Nat → BlockData
  cur : Nat
  labels : Nat → Option Nat
  nextId : Nat
  declVoid : Bool
  retTyVoid : Bool
  diags : List Nat

/-- Look up a block's data. -/
def CGState.getBlock (s : CGState) (id : Nat) : BlockData := s.store id

/-- Append one instruction to the builder's current insertion block. -/
def CGState.appendInstr (s : CGState) (i : Instr) : CGState :=
  { s with store := fun id =>
      if id = s.cur then
        { s.store id with instrs := (s.store id).instrs ++ [i] }
      else s.store id }

/-- `new BasicBlock(name)` / `new BasicBlock(name, CurFn)`: allocate a fresh
block with the given name, appending it to the function's block list iff a
parent function was supplied. -/
def CGState.newBlock (s : CGState) (name : String) (inFn : Bool) : Nat × CGState :=
  (s.nextId,
   { s with
     nextId := s.nextId + 1,
     store := fun id => if id = s.nextId then ⟨name, []⟩ else s.store id,
     blocks := if inFn then s.blocks ++ [s.nextId] else s.blocks })

/-- `Builder.CreateBr`. -/
def CreateBr (dest : Nat) (s : CGState) : CGState := s.appendInstr (.br dest)

/-- `Builder.CreateCondBr`. -/
def CreateCondBr (cond tdest fdest : Nat) (s : CGState) : CGState :=
  s.appendInstr (.condbr cond tdest fdest)

/-- `Builder.CreateRetVoid`. -/
def CreateRetVoid (s : CGState) : CGState := s.appendInstr .retVoid

/-- `Builder.CreateRet`. -/
def CreateRet (v : RVal) (s : CGState) : CGState := s.appendInstr (.ret v)

/-- Modelled from the spec: the expression collaborator
`evaluate(expr) -> Value` (spec section 6); `EmitExpr` lives in `CGExpr.cpp`,
outside the given source.  Its side effects materialize as one non-terminator
instruction appended to the current block, and it returns the expression's
typed result, tagged scalar-or-aggregate. -/
def EmitExpr (e : Expr) (s : CGState) : ExprResult × CGState :=
  (⟨e.scalarResult, e.payload⟩, s.appendInstr (.eval e.payload))

/-- Modelled from the spec: "convert to a truth value using the rule true iff
the scalar compares unequal to 0" (spec section 4.4); implemented outside the
given source.  The resulting boolean value is the opaque value id consumed by
the conditional branch. -/
def EvaluateScalarValueToBool (v : ExprResult) : Nat := v.val

/-- Modelled from the spec: label resolution `labelBlock(label)`
(spec section 4.3); `getBasicBlockForLabel` lives in `CodeGenFunction.cpp`,
outside the given source.  It returns the block recorded for the label,
creating and recording a fresh, named, unplaced block on first reference;
once created, the binding is never replaced. -/
def getBasicBlockForLabel (l : Nat) (s : CGState) : Nat × CGState :=
  match s.labels l with
  | some bb => (bb, s)
  | none =>
      let r := s.newBlock ("label") false
      (r.1, { r.2 with labels := fun l2 => if l2 = l then some r.1 else r.2.labels l2 })

/-- `CodeGenFunction::EmitBlock`: connect the previous insertion block to `BB`
(leave it alone if already terminated, erase it if it is an empty unnamed
placeholder, otherwise emit a fall-through branch), then append `BB` to the
function's block list and move the insertion point to it. -/
def EmitBlock (BB : Nat) (s : CGState) : CGState :=
  let lastBB := s.cur
  let s1 :=
    if (s.getBlock lastBB).getTerminator.isSome then
      s
    else if (s.getBlock lastBB).instrs = [] ∧ (s.getBlock lastBB).name = "" then
      { s with blocks := s.blocks.erase lastBB }
    else
      CreateBr BB s
  { s1 with blocks := s1.blocks ++ [BB], cur := BB }

/-- `CodeGenFunction::EmitGotoStmt`: branch to the label's block, then open a
fresh anonymous block so that dead code after the goto has some place to go. -/
def EmitGotoStmt (l : Nat) (s : CGState) : CGState :=
  let r := getBasicBlockForLabel l s
  let s2 := CreateBr r.1 r.2
  let p := s2.newBlock ("") true
  { p.2 with cur := p.1 }

/-- `CodeGenFunction::EmitReturnStmt`: evaluate the operand if present (for its
side effects), emit the return matching the declared type and operand shape
(`assert(0)` on an aggregate operand in a non-void function), then open a fresh
anonymous block for dead code after the return. -/
def EmitReturnStmt (rv : Option Expr) (s : CGState) : Except LErr CGState :=
  let p : Option ExprResult × CGState :=
    match rv with
    | some e => let r := EmitExpr e s; (some r.1, r.2)
    | none => (none, s)
  let retVal := p.1
  let s1 := p.2
  let emitted : Except LErr CGState :=
    if s1.declVoid then
      .ok (CreateRetVoid s1)
    else
      match retVal with
      | none =>
          if s1.retTyVoid then .ok (CreateRetVoid s1)
          else .ok (CreateRet .undef s1)
      | some r =>
          if r.isScalar then .ok (CreateRet (.scalar r.val) s1)
          else .error .aggregateReturnUnimp
  match emitted with
  | .error e => .error e
  | .ok s2 =>
      let q := s2.newBlock ("") true
      .ok { q.2 with cur := q.1 }

mutual

/-- `CodeGenFunction::EmitStmt`: dispatch one statement node to its lowering
routine.  The bodies of `EmitLabelStmt` and `EmitIfStmt` are written inline
here (so that the mutual recursion is structural over the statement tree); the
standalone definitions below restate them and are proved equal by `rfl`-style
lemmas. -/
def EmitStmt : Stmt → CGState → Except LErr CGState
  | .null, s => .ok s
  | .compound body, s => EmitCompoundStmt body s
  | .label l sub, s =>
      let r := getBasicBlockForLabel l s
      EmitStmt sub (EmitBlock r.1 r.2)
  | .goto l, s => .ok (EmitGotoStmt l s)
  | .ifS cond thenS elseS, s =>
      let cv := EmitExpr cond s
      let boolCondVal := EvaluateScalarValueToBool cv.1
      let cb := cv.2.newBlock ("ifend") false
      let contBlock := cb.1
      let tb := cb.2.newBlock ("ifthen") false
      let thenBlock := tb.1
      let eb : Nat × CGState :=
        match elseS with
        | some _ => tb.2.newBlock ("ifelse") false
        | none => (contBlock, tb.2)
      let elseBlock := eb.1
      let s2 := CreateCondBr boolCondVal thenBlock elseBlock eb.2
      match EmitStmt thenS (EmitBlock thenBlock s2) with
      | .error e => .error e
      | .ok sThen =>
          let s3 := CreateBr contBlock sThen
          match elseS with
          | some e2 =>
              match EmitStmt e2 (EmitBlock elseBlock s3) with
              | .error er => .error er
              | .ok sElse => .ok (EmitBlock contBlock (CreateBr contBlock sElse))
          | none => .ok (EmitBlock contBlock s3)
  | .ret rv, s => EmitReturnStmt rv s
  | .exprS e, s => .ok (EmitExpr e s).2
  | .other tag, s => .ok { s with diags := s.diags ++ [tag] }

/-- `CodeGenFunction::EmitCompoundStmt`: lower each statement of the body in
source order. -/
def EmitCompoundStmt : List Stmt → CGState → Except LErr CGState
  | [], s => .ok s
  | st :: rest, s =>
      match EmitStmt st s with
      | .error e => .error e
      | .ok s1 => EmitCompoundStmt rest s1

end

/-- `CodeGenFunction::EmitLabelStmt`: fetch or create the label's block, make
it current through `EmitBlock`, then lower the annotated sub-statement. -/
def EmitLabelStmt (l : Nat) (sub : Stmt) (s : CGState) : Except LErr CGState :=
  let r := getBasicBlockForLabel l s
  EmitStmt sub (EmitBlock r.1 r.2)

/-- `CodeGenFunction::EmitIfStmt`: evaluate the condition to a truth value,
allocate the continuation/then(/else) blocks, emit the two-way conditional
branch, lower each arm into its own block followed by a branch to the
continuation, and finish with the continuation block current. -/
def EmitIfStmt (cond : Expr) (thenS : Stmt) (elseS : Option Stmt) (s : CGState) :
    Except LErr CGState :=
  let cv := EmitExpr cond s
  let boolCondVal := EvaluateScalarValueToBool cv.1
  let cb := cv.2.newBlock ("ifend") false
  let contBlock := cb.1
  let tb := cb.2.newBlock ("ifthen") false
  let thenBlock := tb.1
  let eb : Nat × CGState :=
    match elseS with
    | some _ => tb.2.newBlock ("ifelse") false
    | none => (contBlock, tb.2)
  let elseBlock := eb.1
  let s2 := CreateCondBr boolCondVal thenBlock elseBlock eb.2
  match EmitStmt thenS (EmitBlock thenBlock s2) with
  | .error e => .error e
  | .ok sThen =>
      let s3 := CreateBr contBlock sThen
      match elseS with
      | some e2 =>
          match EmitStmt e2 (EmitBlock elseBlock s3) with
          | .error er => .error er
          | .ok sElse => .ok (EmitBlock contBlock (CreateBr contBlock sElse))
      | none => .ok (EmitBlock contBlock s3)

/-! ### Well-formed instruction lists and basic lemmas -/

/-- The last instruction, if any, is a terminator. -/
def lastIsTerm (l : List Instr) : Bool :=
  match l.getLast? with
  | some i => i.isTerminator
  | none => false

/-- Every instruction before the last position is a non-terminator (hence a
block satisfying this has at most one terminator, and only in last position). -/
def wfInstrs : List Instr → Bool
  | [] => true
  | [_] => true
  | i :: rest => !i.isTerminator && wfInstrs rest

/-- The spec-side reading of the terminator invariant: any terminator occupies
the last position of the instruction list. -/
def terminatorLastOnly (l : List Instr) : Prop :=
  ∀ (k : Nat) (h : k < l.length), (l.get ⟨k, h⟩).isTerminator = true → k + 1 = l.length


/-! ### The lowering-state invariant -/

/-- The part of the state invariant that survives mid-routine (between the
moment a terminator is placed and the moment a fresh block becomes current):
all blocks are well formed, blocks recorded in the label table but not yet in
the function list are still empty, the insertion block is in the function list,
the function list has no duplicates, all mentioned block ids are allocated,
unallocated ids are pristine, the label table is injective, and every
label-table block carries the label name (so it is never an anonymous
placeholder). -/
structure CGCore (s : CGState) : Prop where
  wfStore : ∀ id, wfInstrs (s.store id).instrs = true
  labelEmpty : ∀ l bb, s.labels l = some bb → bb ∉ s.blocks → (s.store bb).instrs = []
  curIn : s.cur ∈ s.blocks
  nodup : s.blocks.Nodup
  blocksLt : ∀ id, id ∈ s.blocks → id < s.nextId
  labelsLt : ∀ l bb, s.labels l = some bb → bb < s.nextId
  freshClean : ∀ id, s.nextId ≤ id → s.store id = ⟨"", []⟩
  labelsInj : ∀ l1 l2 bb, s.labels l1 = some bb → s.labels l2 = some bb → l1 = l2
  labelNamed : ∀ l bb, s.labels l = some bb → (s.store bb).name = "label"

/-- The full invariant, as it holds at every statement boundary: additionally
the insertion block is not yet terminated, so instructions may be appended. -/
structure CGInv (s : CGState) extends CGCore s : Prop where
  curOpen : lastIsTerm (s.store s.cur).instrs = false

mutual

/-- The labels defined (by a label statement) inside a statement tree. -/
def stmtDefs : Stmt → List Nat
  | .null => []
  | .compound body => stmtsDefs body
  | .label l sub => l :: stmtDefs sub
  | .goto _ => []
  | .ifS _ t els =>
      stmtDefs t ++ (match els with
        | some e => stmtDefs e
        | none => [])
  | .ret _ => []
  | .exprS _ => []
  | .other _ => []

/-- The labels defined inside a list of statements. -/
def stmtsDefs : List Stmt → List Nat
  | [] => []
  | st :: rest => stmtDefs st ++ stmtsDefs rest

end

/-- Upstream well-formedness of the input tree relative to the current state:
no label about to be defined already has its block placed in the function's
block list (each label statement appears at most once — duplicate label
definitions are rejected by semantic analysis before lowering). -/
def LabelsFresh (ds : List Nat) (s : CGState) : Prop :=
  ∀ l, l ∈ ds → ∀ bb, s.labels l = some bb → bb ∉ s.blocks

/-- What one successful lowering step guarantees, relative to its start state
`s` and the labels `ds` it may define: the invariant still holds, ids are
allocated monotonically, label bindings are never replaced, labels not defined
by the step never get their block placed by it, blocks that were unplaced,
already allocated, and unreferenced by the label table stay untouched and
unplaced, and blocks already in the function list other than the insertion
block are untouched (and do not become the insertion block). -/
structure CGPost (s s' : CGState) (ds : List Nat) : Prop where
  inv : CGInv s'
  mono : s.nextId ≤ s'.nextId
  labsMono : ∀ l bb, s.labels l = some bb → s'.labels l = some bb
  labsNew : ∀ l bb, s'.labels l = some bb → s.labels l = some bb ∨ s.nextId ≤ bb
  undefStable : ∀ l, l ∉ ds → ∀ bb, s'.labels l = some bb → bb ∈ s'.blocks →
      s.labels l = some bb ∧ bb ∈ s.blocks
  unplaced : ∀ id, id ∉ s.blocks → id < s.nextId → (∀ l, s.labels l ≠ some id) →
      id ∉ s'.blocks ∧ s'.store id = s.store id ∧ (∀ l, s'.labels l ≠ some id)
  placed : ∀ id, id ∈ s.blocks → id ≠ s.cur →
      id ∈ s'.blocks ∧ s'.store id = s.store id ∧ s'.cur ≠ id

/-- The facts a single `EmitBlock` call guarantees, under the preconditions it
is always called with: the invariant core, and a target block that is
unplaced, already allocated, and not yet terminated. -/
structure EmitBlockFacts (s : CGState) (BB : Nat) : Prop where
  inv : CGInv (EmitBlock BB s)
  curEq : (EmitBlock BB s).cur = BB
  nextIdEq : (EmitBlock BB s).nextId = s.nextId
  labelsEq : (EmitBlock BB s).labels = s.labels
  declVoidEq : (EmitBlock BB s).declVoid = s.declVoid
  retTyVoidEq : (EmitBlock BB s).retTyVoid = s.retTyVoid
  neCur : BB ≠ s.cur
  storeEq : ∀ id, id ≠ s.cur → (EmitBlock BB s).store id = s.store id
  memOf : ∀ id, id ∈ (EmitBlock BB s).blocks → id ∈ s.blocks ∨ id = BB
  memKeep : ∀ id, id ∈ s.blocks → id ≠ s.cur → id ∈ (EmitBlock BB s).blocks
  memNew : BB ∈ (EmitBlock BB s).blocks

/-! ### Claim-level definitions -/

/-- The block ids an instruction transfers control to. -/
def Instr.targets : Instr → List Nat
  | .br dest => [dest]
  | .condbr _ tdest fdest => [tdest, fdest]
  | .retVoid => []
  | .ret _ => []
  | .eval _ => []

/-- The state a `CodeGenFunction` starts lowering a body in: a single, empty,
named entry block that is the insertion block, an empty label table, and the
declared-type flags of the function being lowered. -/
def initState (dv rtv : Bool) : CGState :=
  { blocks := [0],
    store := fun id => if id = 0 then ⟨"entry", []⟩ else ⟨"", []⟩,
    cur := 0,
    labels := fun _ => none,
    nextId := 1,
    declVoid := dv,
    retTyVoid := rtv,
    diags := [] }

/-- Extract the state of a successful lowering (with a default for failures). -/
def theOk (r : Except LErr CGState) (dflt : CGState) : CGState :=
  match r with
  | .ok s => s
  | .error _ => dflt

/-- A sample body exercising `if`, `goto`, forward label reference and
`return`, used by witnesses. -/
def sampleProg : Stmt :=
  .compound [.ifS ⟨true, 1⟩ (.ret (some ⟨true, 2⟩)) none, .goto 4, .label 4 (.ret none)]


theorem EmitStmt_label_eq (l : Nat) (sub : Stmt) (s : CGState) :
    EmitStmt (.label l sub) s = EmitLabelStmt l sub s := by
  simp [EmitStmt, EmitLabelStmt]

theorem EmitStmt_if_eq (c : Expr) (t : Stmt) (e : Option Stmt) (s : CGState) :
    EmitStmt (.ifS c t e) s = EmitIfStmt c t e s := by
  unfold EmitStmt EmitIfStmt
  rfl

theorem EmitStmt_compound_eq (body : List Stmt) (s : CGState) :
    EmitStmt (.compound body) s = EmitCompoundStmt body s := by
  simp [EmitStmt]

theorem getTerminator_isSome (b : BlockData) :
    b.getTerminator.isSome = lastIsTerm b.instrs := by
  unfold BlockData.getTerminator lastIsTerm
  cases h : b.instrs.getLast? with
  | none => simp
  | some i => by_cases hi : i.isTerminator = true <;> simp [hi]

theorem lastIsTerm_nil : lastIsTerm [] = false := rfl

theorem lastIsTerm_concat (l : List Instr) (i : Instr) :
    lastIsTerm (l ++ [i]) = i.isTerminator := by
  unfold lastIsTerm
  simp

theorem wfInstrs_nil : wfInstrs [] = true := rfl

theorem wfInstrs_concat (l : List Instr) (i : Instr)
    (hwf : wfInstrs l = true) (hterm : lastIsTerm l = false) :
    wfInstrs (l ++ [i]) = true := by
  induction l with
  | nil => rfl
  | cons a rest ih =>
      cases rest with
      | nil =>
          unfold lastIsTerm at hterm
          simp at hterm
          simp [wfInstrs, hterm]
      | cons b rest2 =>
          unfold wfInstrs at hwf
          simp at hwf
          have h2 := ih hwf.2 (by
            unfold lastIsTerm at hterm ⊢
            simpa using hterm)
          simpa [wfInstrs, hwf.1] using h2

theorem wfInstrs_terminatorLastOnly (l : List Instr) (hwf : wfInstrs l = true) :
    terminatorLastOnly l := by
  induction l with
  | nil => intro k h; simp at h
  | cons a rest ih =>
      cases rest with
      | nil =>
          intro k h hterm
          cases k with
          | zero => simp
          | succ k2 => simp at h
      | cons b rest2 =>
          unfold wfInstrs at hwf
          simp at hwf
          intro k h hterm
          cases k with
          | zero =>
              simp at hterm
              rw [hterm] at hwf
              simp at hwf
          | succ k2 =>
              have := ih hwf.2 k2 (by simpa using h) (by simpa using hterm)
              simpa using this

/-! ### Projection lemmas for the state primitives -/

@[simp] theorem appendInstr_blocks (s : CGState) (i : Instr) :
    (s.appendInstr i).blocks = s.blocks := rfl

@[simp] theorem appendInstr_cur (s : CGState) (i : Instr) :
    (s.appendInstr i).cur = s.cur := rfl

@[simp] theorem appendInstr_labels (s : CGState) (i : Instr) :
    (s.appendInstr i).labels = s.labels := rfl

@[simp] theorem appendInstr_nextId (s : CGState) (i : Instr) :
    (s.appendInstr i).nextId = s.nextId := rfl

@[simp] theorem appendInstr_diags (s : CGState) (i : Instr) :
    (s.appendInstr i).diags = s.diags := rfl

@[simp] theorem appendInstr_declVoid (s : CGState) (i : Instr) :
    (s.appendInstr i).declVoid = s.declVoid := rfl

@[simp] theorem appendInstr_retTyVoid (s : CGState) (i : Instr) :
    (s.appendInstr i).retTyVoid = s.retTyVoid := rfl

theorem appendInstr_store (s : CGState) (i : Instr) (id : Nat) :
    (s.appendInstr i).store id =
      if id = s.cur then
        { s.store id with instrs := (s.store id).instrs ++ [i] }
      else s.store id := rfl

@[simp] theorem appendInstr_store_cur (s : CGState) (i : Instr) :
    (s.appendInstr i).store s.cur =
      { s.store s.cur with instrs := (s.store s.cur).instrs ++ [i] } := by
  simp [appendInstr_store]

theorem appendInstr_store_ne (s : CGState) (i : Instr) (id : Nat) (h : id ≠ s.cur) :
    (s.appendInstr i).store id = s.store id := by
  simp [appendInstr_store, h]

@[simp] theorem newBlock_fst (s : CGState) (nm : String) (inFn : Bool) :
    (s.newBlock nm inFn).1 = s.nextId := rfl

@[simp] theorem newBlock_nextId (s : CGState) (nm : String) (inFn : Bool) :
    (s.newBlock nm inFn).2.nextId = s.nextId + 1 := rfl

@[simp] theorem newBlock_cur (s : CGState) (nm : String) (inFn : Bool) :
    (s.newBlock nm inFn).2.cur = s.cur := rfl

@[simp] theorem newBlock_labels (s : CGState) (nm : String) (inFn : Bool) :
    (s.newBlock nm inFn).2.labels = s.labels := rfl

@[simp] theorem newBlock_diags (s : CGState) (nm : String) (inFn : Bool) :
    (s.newBlock nm inFn).2.diags = s.diags := rfl

@[simp] theorem newBlock_declVoid (s : CGState) (nm : String) (inFn : Bool) :
    (s.newBlock nm inFn).2.declVoid = s.declVoid := rfl

@[simp] theorem newBlock_retTyVoid (s : CGState) (nm : String) (inFn : Bool) :
    (s.newBlock nm inFn).2.retTyVoid = s.retTyVoid := rfl

theorem newBlock_blocks (s : CGState) (nm : String) (inFn : Bool) :
    (s.newBlock nm inFn).2.blocks =
      if inFn then s.blocks ++ [s.nextId] else s.blocks := rfl

theorem newBlock_store (s : CGState) (nm : String) (inFn : Bool) (id : Nat) :
    (s.newBlock nm inFn).2.store id =
      if id = s.nextId then ⟨nm, []⟩ else s.store id := rfl

theorem CGPost.trans {s1 s2 s3 : CGState} {ds1 ds2 : List Nat}
    (a : CGPost s1 s2 ds1) (b : CGPost s2 s3 ds2) : CGPost s1 s3 (ds1 ++ ds2) := by
  refine ⟨b.inv, le_trans a.mono b.mono, ?_, ?_, ?_, ?_, ?_⟩
  · intro l bb h
    exact b.labsMono l bb (a.labsMono l bb h)
  · intro l bb h
    rcases b.labsNew l bb h with h2 | h2
    · rcases a.labsNew l bb h2 with h3 | h3
      · exact Or.inl h3
      · exact Or.inr h3
    · exact Or.inr (le_trans a.mono h2)
  · intro l hl bb h3 hin3
    simp at hl
    have h2 := b.undefStable l hl.2 bb h3 hin3
    exact a.undefStable l hl.1 bb h2.1 h2.2
  · intro id hnin hlt hlab
    have h1 := a.unplaced id hnin hlt hlab
    have h2 := b.unplaced id h1.1 (lt_of_lt_of_le hlt a.mono) h1.2.2
    exact ⟨h2.1, h2.2.1.trans h1.2.1, h2.2.2⟩
  · intro id hin hne
    have h1 := a.placed id hin hne
    have h2 := b.placed id h1.1 (fun he => h1.2.2 he.symm)
    exact ⟨h2.1, h2.2.1.trans h1.2.1, h2.2.2⟩

theorem CGPost.widen {s s' : CGState} {ds ds' : List Nat}
    (hsub : ∀ l, l ∈ ds → l ∈ ds') (h : CGPost s s' ds) : CGPost s s' ds' := by
  refine ⟨h.inv, h.mono, h.labsMono, h.labsNew, ?_, h.unplaced, h.placed⟩
  intro l hl
  exact h.undefStable l (fun hc => hl (hsub l hc))

theorem CGPost.refl {s : CGState} (hI : CGInv s) (ds : List Nat) : CGPost s s ds := by
  refine ⟨hI, le_refl _, fun l bb h => h, fun l bb h => Or.inl h,
    fun l hl bb h3 hin3 => ⟨h3, hin3⟩, ?_, ?_⟩
  · intro id hnin hlt hlab
    exact ⟨hnin, rfl, hlab⟩
  · intro id hin hne
    exact ⟨hin, rfl, fun he => hne he.symm⟩

/-- `LabelsFresh` carries across a lowering step to the labels of a subsequent
step, provided the two steps define disjoint labels. -/
theorem LabelsFresh.step {s s' : CGState} {ds1 ds2 : List Nat}
    (hf : LabelsFresh ds2 s) (hp : CGPost s s' ds1)
    (hdisj : ∀ l, l ∈ ds2 → l ∉ ds1) : LabelsFresh ds2 s' := by
  intro l hl bb h hin
  have h2 := hp.undefStable l (hdisj l hl) bb h hin
  exact hf l hl bb h2.1 h2.2

/-! ### Characterizations of `EmitBlock` and `getBasicBlockForLabel` -/

theorem EmitBlock_of_term (BB : Nat) (s : CGState)
    (h : lastIsTerm (s.store s.cur).instrs = true) :
    EmitBlock BB s = { s with blocks := s.blocks ++ [BB], cur := BB } := by
  unfold EmitBlock
  simp [CGState.getBlock, getTerminator_isSome, h]

theorem EmitBlock_of_placeholder (BB : Nat) (s : CGState)
    (h1 : (s.store s.cur).instrs = []) (h2 : (s.store s.cur).name = "") :
    EmitBlock BB s = { s with blocks := s.blocks.erase s.cur ++ [BB], cur := BB } := by
  unfold EmitBlock
  simp [CGState.getBlock, getTerminator_isSome, h1, h2, lastIsTerm]

theorem EmitBlock_of_fallthrough (BB : Nat) (s : CGState)
    (hterm : lastIsTerm (s.store s.cur).instrs = false)
    (h : ¬((s.store s.cur).instrs = [] ∧ (s.store s.cur).name = "")) :
    EmitBlock BB s =
      { s with store := (CreateBr BB s).store, blocks := s.blocks ++ [BB], cur := BB } := by
  unfold EmitBlock
  simp [CGState.getBlock, getTerminator_isSome, hterm, h, CreateBr]

theorem gbfl_some (l : Nat) (s : CGState) (bb : Nat) (h : s.labels l = some bb) :
    getBasicBlockForLabel l s = (bb, s) := by
  unfold getBasicBlockForLabel
  simp [h]

theorem gbfl_none (l : Nat) (s : CGState) (h : s.labels l = none) :
    getBasicBlockForLabel l s =
      (s.nextId,
       { s with
         nextId := s.nextId + 1,
         store := fun id => if id = s.nextId then ⟨"label", []⟩ else s.store id,
         labels := fun l2 => if l2 = l then some s.nextId else s.labels l2 }) := by
  unfold getBasicBlockForLabel
  simp [h, CGState.newBlock]

theorem nodup_append_singleton {l : List Nat} {b : Nat} (h : l.Nodup) (hb : b ∉ l) :
    (l ++ [b]).Nodup := by
  simp [List.nodup_append, h, hb]

theorem emitBlock_facts (s : CGState) (BB : Nat) (core : CGCore s)
    (hnin : BB ∉ s.blocks) (hlt : BB < s.nextId)
    (hopen : lastIsTerm (s.store BB).instrs = false) :
    EmitBlockFacts s BB := by
  have hne : BB ≠ s.cur := fun he => hnin (he ▸ core.curIn)
  by_cases h1 : lastIsTerm (s.store s.cur).instrs = true
  · -- previous block already terminated: left alone
    have hE := EmitBlock_of_term BB s h1
    constructor
    all_goals try rw [hE]
    · refine ⟨⟨core.wfStore, ?_, by simp, ?_, ?_, core.labelsLt, core.freshClean,
        core.labelsInj, core.labelNamed⟩, ?_⟩
      · intro l bb hl hb
        simp at hb
        exact core.labelEmpty l bb hl hb.1
      · exact nodup_append_singleton core.nodup hnin
      · intro id hid
        simp at hid
        rcases hid with h | h
        · exact core.blocksLt id h
        · exact h ▸ hlt
      · exact hopen
    · exact hne
    · intro id _
      rfl
    · intro id hid
      simpa using hid
    · intro id hid _
      simp [hid]
    · simp
  · have h1f : lastIsTerm (s.store s.cur).instrs = false := by
      simpa using h1
    by_cases h2 : (s.store s.cur).instrs = [] ∧ (s.store s.cur).name = ""
    · -- empty anonymous placeholder: erased
      have hE := EmitBlock_of_placeholder BB s h2.1 h2.2
      constructor
      all_goals try rw [hE]
      · refine ⟨⟨core.wfStore, ?_, by simp, ?_, ?_, core.labelsLt, core.freshClean,
          core.labelsInj, core.labelNamed⟩, ?_⟩
        · intro l bb hl hb
          simp at hb
          by_cases hbc : bb = s.cur
          · exact hbc ▸ h2.1
          · exact core.labelEmpty l bb hl
              (fun hmem => hb.1 ((List.mem_erase_of_ne hbc).mpr hmem))
        · exact nodup_append_singleton (core.nodup.erase s.cur)
            (fun ha => hnin (List.mem_of_mem_erase ha))
        · intro id hid
          simp at hid
          rcases hid with h | h
          · exact core.blocksLt id (List.mem_of_mem_erase h)
          · exact h ▸ hlt
        · exact hopen
      · exact hne
      · intro id _
        rfl
      · intro id hid
        simp at hid
        rcases hid with h | h
        · exact Or.inl (List.mem_of_mem_erase h)
        · exact Or.inr h
      · intro id hid hidc
        simp
        exact Or.inl ((List.mem_erase_of_ne hidc).mpr hid)
      · simp
    · -- ordinary fall-through branch
      have hE := EmitBlock_of_fallthrough BB s h1f h2
      constructor
      all_goals try rw [hE]
      · refine ⟨⟨?_, ?_, by simp, ?_, ?_, core.labelsLt, ?_, core.labelsInj, ?_⟩, ?_⟩
        · intro id
          by_cases hc : id = s.cur
          · subst hc
            simp [CreateBr, appendInstr_store]
            exact wfInstrs_concat _ _ (core.wfStore s.cur) h1f
          · simpa [CreateBr, appendInstr_store, hc] using core.wfStore id
        · intro l bb hl hb
          simp at hb
          have hbc : bb ≠ s.cur := fun he => hb.1 (he ▸ core.curIn)
          simpa [CreateBr, appendInstr_store, hbc] using core.labelEmpty l bb hl hb.1
        · exact nodup_append_singleton core.nodup hnin
        · intro id hid
          simp at hid
          rcases hid with h | h
          · exact core.blocksLt id h
          · exact h ▸ hlt
        · intro id hid
          have hid2 : s.nextId ≤ id := hid
          have hcur : s.cur < s.nextId := core.blocksLt s.cur core.curIn
          have hc : id ≠ s.cur := by omega
          simpa [CreateBr, appendInstr_store, hc] using core.freshClean id hid2
        · intro l bb hl
          by_cases hc : bb = s.cur
          · subst hc
            simpa [CreateBr, appendInstr_store] using core.labelNamed l _ hl
          · simpa [CreateBr, appendInstr_store, hc] using core.labelNamed l bb hl
        · simpa [CreateBr, appendInstr_store, hne] using hopen
      · exact hne
      · intro id hid
        simp [CreateBr, appendInstr_store, hid]
      · intro id hid
        simpa using hid
      · intro id hid _
        simp [hid]
      · simp

/-! ### Invariant preservation for the primitive steps -/

theorem core_append (hI : CGInv s) (i : Instr) : CGCore (s.appendInstr i) := by
  refine ⟨?_, ?_, hI.curIn, hI.nodup, hI.blocksLt, hI.labelsLt, ?_, hI.labelsInj, ?_⟩
  · intro id
    rw [appendInstr_store]
    by_cases hc : id = s.cur
    · simp only [hc, if_pos rfl]
      exact wfInstrs_concat _ _ (hI.wfStore s.cur) hI.curOpen
    · simp only [if_neg hc]
      exact hI.wfStore id
  · intro l bb hl hb
    have hbc : bb ≠ s.cur := fun he => hb (he ▸ hI.curIn)
    rw [appendInstr_store_ne s i bb hbc]
    exact hI.labelEmpty l bb hl hb
  · intro id hid
    have hid2 : s.nextId ≤ id := hid
    have hc : id ≠ s.cur := by
      have := hI.blocksLt s.cur hI.curIn
      omega
    rw [appendInstr_store_ne s i id hc]
    exact hI.freshClean id hid2
  · intro l bb hl
    by_cases hc : bb = s.cur
    · subst hc
      rw [appendInstr_store_cur]
      exact hI.labelNamed l s.cur hl
    · rw [appendInstr_store_ne s i bb hc]
      exact hI.labelNamed l bb hl

theorem inv_append_open (hI : CGInv s) (i : Instr) (hi : i.isTerminator = false) :
    CGInv (s.appendInstr i) := by
  refine ⟨core_append hI i, ?_⟩
  rw [appendInstr_cur, appendInstr_store_cur]
  simpa [lastIsTerm_concat] using hi

theorem post_append_open (hI : CGInv s) (i : Instr) (hi : i.isTerminator = false)
    (ds : List Nat) : CGPost s (s.appendInstr i) ds := by
  refine ⟨inv_append_open hI i hi, le_refl _, fun l bb h => h, fun l bb h => Or.inl h,
    ?_, ?_, ?_⟩
  · intro l hl bb h3 hin3
    exact ⟨h3, by simpa using hin3⟩
  · intro id hnin hlt hlab
    have hc : id ≠ s.cur := fun he => hnin (he ▸ hI.curIn)
    exact ⟨by simpa using hnin, appendInstr_store_ne s i id hc, by simpa using hlab⟩
  · intro id hin hne
    exact ⟨by simpa using hin, appendInstr_store_ne s i id hne,
      by simpa using fun he => hne he.symm⟩

/-- The shared tail of `EmitGotoStmt` and `EmitReturnStmt`: append one (final,
possibly terminator) instruction to the current block, then allocate a fresh
anonymous block inside the function and move the insertion point to it. -/
theorem post_termFresh (hI : CGInv s) (i : Instr) (ds : List Nat) :
    CGPost s { ((s.appendInstr i).newBlock ("") true).2 with cur := s.nextId } ds := by
  set X : CGState := { ((s.appendInstr i).newBlock ("") true).2 with cur := s.nextId } with hX
  have hcur : s.cur < s.nextId := hI.blocksLt s.cur hI.curIn
  have hblocks : X.blocks = s.blocks ++ [s.nextId] := by
    simp [hX, CGState.newBlock]
  have hstore : ∀ id, X.store id =
      if id = s.nextId then ⟨"", []⟩ else (s.appendInstr i).store id := by
    intro id
    simp [hX, CGState.newBlock]
  have hnextId : X.nextId = s.nextId + 1 := by simp [hX, CGState.newBlock]
  have hlabels : X.labels = s.labels := by simp [hX, CGState.newBlock]
  have hcurX : X.cur = s.nextId := by simp [hX]
  have hinv : CGInv X := by
    have hcore := core_append hI i
    refine ⟨⟨?_, ?_, ?_, ?_, ?_, ?_, ?_, ?_, ?_⟩, ?_⟩
    · intro id
      rw [hstore id]
      by_cases hc : id = s.nextId
      · simp [hc, wfInstrs]
      · simp only [if_neg hc]
        exact hcore.wfStore id
    · intro l bb hl hb
      rw [hlabels] at hl
      rw [hblocks] at hb
      simp at hb
      rw [hstore bb]
      have hbn : bb ≠ s.nextId := hb.2
      simp only [if_neg hbn]
      have hbc : bb ≠ s.cur := fun he => hb.1 (he ▸ hI.curIn)
      rw [appendInstr_store_ne s i bb hbc]
      exact hI.labelEmpty l bb hl hb.1
    · rw [hcurX, hblocks]
      simp
    · rw [hblocks]
      exact nodup_append_singleton hI.nodup (fun hc => by
        have := hI.blocksLt s.nextId hc
        omega)
    · intro id hid
      rw [hblocks] at hid
      rw [hnextId]
      simp at hid
      rcases hid with h | h
      · have := hI.blocksLt id h
        omega
      · omega
    · intro l bb hl
      rw [hlabels] at hl
      rw [hnextId]
      have := hI.labelsLt l bb hl
      omega
    · intro id hid
      rw [hnextId] at hid
      rw [hstore id]
      have h1 : id ≠ s.nextId := by omega
      have h2 : id ≠ s.cur := by omega
      simp only [if_neg h1]
      rw [appendInstr_store_ne s i id h2]
      exact hI.freshClean id (by omega)
    · intro l1 l2 bb h1 h2
      rw [hlabels] at h1 h2
      exact hI.labelsInj l1 l2 bb h1 h2
    · intro l bb hl
      rw [hlabels] at hl
      rw [hstore bb]
      have hbn : bb ≠ s.nextId := by
        have := hI.labelsLt l bb hl
        omega
      simp only [if_neg hbn]
      by_cases hbc : bb = s.cur
      · subst hbc
        rw [appendInstr_store_cur]
        exact hI.labelNamed l s.cur hl
      · rw [appendInstr_store_ne s i bb hbc]
        exact hI.labelNamed l bb hl
    · rw [hcurX, hstore s.nextId]
      simp [lastIsTerm]
  refine ⟨hinv, by rw [hnextId]; omega, ?_, ?_, ?_, ?_, ?_⟩
  · intro l bb h
    rw [hlabels]
    exact h
  · intro l bb h
    rw [hlabels] at h
    exact Or.inl h
  · intro l hl bb h3 hin3
    rw [hlabels] at h3
    rw [hblocks] at hin3
    simp at hin3
    rcases hin3 with h | h
    · exact ⟨h3, h⟩
    · have := hI.labelsLt l bb h3
      omega
  · intro id hnin hlt hlab
    have h1 : id ≠ s.nextId := by omega
    have h2 : id ≠ s.cur := fun he => hnin (he ▸ hI.curIn)
    refine ⟨?_, ?_, ?_⟩
    · rw [hblocks]
      simp [hnin, h1]
    · rw [hstore id]
      simp only [if_neg h1]
      exact appendInstr_store_ne s i id h2
    · rw [hlabels]
      exact hlab
  · intro id hin hne
    have h1 : id ≠ s.nextId := by
      have := hI.blocksLt id hin
      omega
    refine ⟨?_, ?_, ?_⟩
    · rw [hblocks]
      simp [hin]
    · rw [hstore id]
      simp only [if_neg h1]
      exact appendInstr_store_ne s i id hne
    · rw [hcurX]
      omega

theorem post_gbflNone (hI : CGInv s) (l : Nat) (h : s.labels l = none) (ds : List Nat) :
    CGPost s (getBasicBlockForLabel l s).2 ds := by
  rw [gbfl_none l s h]
  have hinv : CGInv
      { s with
        nextId := s.nextId + 1,
        store := fun id => if id = s.nextId then ⟨"label", []⟩ else s.store id,
        labels := fun l2 => if l2 = l then some s.nextId else s.labels l2 } := by
    refine ⟨⟨?_, ?_, hI.curIn, hI.nodup, ?_, ?_, ?_, ?_, ?_⟩, ?_⟩
    · intro id
      by_cases hc : id = s.nextId
      · simp [hc, wfInstrs]
      · simpa [hc] using hI.wfStore id
    · intro l2 bb hl hb
      by_cases hc : l2 = l
      · simp [hc] at hl
        simp [← hl]
      · simp [hc] at hl
        have hbn : bb ≠ s.nextId := by
          have := hI.labelsLt l2 bb hl
          omega
        simpa [hbn] using hI.labelEmpty l2 bb hl hb
    · intro id hid
      show id < s.nextId + 1
      have := hI.blocksLt id hid
      omega
    · intro l2 bb hl
      show bb < s.nextId + 1
      by_cases hc : l2 = l
      · simp [hc] at hl
        omega
      · simp [hc] at hl
        have := hI.labelsLt l2 bb hl
        omega
    · intro id hid
      have hid2 : s.nextId + 1 ≤ id := hid
      have h1 : id ≠ s.nextId := by omega
      simpa [h1] using hI.freshClean id (by omega)
    · intro l1 l2 bb h1 h2
      by_cases hc1 : l1 = l <;> by_cases hc2 : l2 = l
      · rw [hc1, hc2]
      · simp [hc1] at h1
        simp [hc2] at h2
        have := hI.labelsLt l2 bb h2
        omega
      · simp [hc1] at h1
        simp [hc2] at h2
        have := hI.labelsLt l1 bb h1
        omega
      · simp [hc1] at h1
        simp [hc2] at h2
        exact hI.labelsInj l1 l2 bb h1 h2
    · intro l2 bb hl
      by_cases hc : l2 = l
      · simp [hc] at hl
        simp [← hl]
      · simp [hc] at hl
        have hbn : bb ≠ s.nextId := by
          have := hI.labelsLt l2 bb hl
          omega
        simpa [hbn] using hI.labelNamed l2 bb hl
    · have hcn : s.cur ≠ s.nextId := by
        have := hI.blocksLt s.cur hI.curIn
        omega
      simpa [hcn] using hI.curOpen
  refine ⟨hinv, by show s.nextId ≤ s.nextId + 1; omega, ?_, ?_, ?_, ?_, ?_⟩
  · intro l2 bb hl
    have hc : l2 ≠ l := fun he => by
      rw [he, h] at hl
      exact Option.noConfusion hl
    simp [hc]
    exact hl
  · intro l2 bb hl
    by_cases hc : l2 = l
    · simp [hc] at hl
      omega
    · simp [hc] at hl
      exact Or.inl hl
  · intro l2 hl2 bb h3 hin3
    simp at h3 hin3
    by_cases hc : l2 = l
    · simp [hc] at h3
      rw [← h3] at hin3
      have := hI.blocksLt s.nextId hin3
      omega
    · simp [hc] at h3
      exact ⟨h3, hin3⟩
  · intro id hnin hlt hlab
    have h1 : id ≠ s.nextId := by omega
    refine ⟨by simpa using hnin, by simp [h1], ?_⟩
    intro l2
    by_cases hc : l2 = l
    · simp [hc]
      omega
    · simp [hc]
      exact hlab l2
  · intro id hin hne
    have h1 : id ≠ s.nextId := by
      have := hI.blocksLt id hin
      omega
    exact ⟨by simpa using hin, by simp [h1], by simpa using fun he => hne he.symm⟩

theorem post_goto (hI : CGInv s) (l : Nat) (ds : List Nat) :
    CGPost s (EmitGotoStmt l s) ds := by
  cases hl : s.labels l with
  | some bb =>
      have he : EmitGotoStmt l s =
          { ((s.appendInstr (.br bb)).newBlock ("") true).2 with cur := s.nextId } := by
        simp [EmitGotoStmt, gbfl_some l s bb hl, CreateBr]
      rw [he]
      exact post_termFresh hI (.br bb) ds
  | none =>
      have hpa : CGPost s (getBasicBlockForLabel l s).2 ds := post_gbflNone hI l hl ds
      have hpb := post_termFresh hpa.inv (Instr.br (getBasicBlockForLabel l s).1) ds
      have he : EmitGotoStmt l s =
          { (((getBasicBlockForLabel l s).2.appendInstr
              (.br (getBasicBlockForLabel l s).1)).newBlock ("") true).2
            with cur := (getBasicBlockForLabel l s).2.nextId } := by
        simp [EmitGotoStmt, CreateBr]
      rw [he]
      exact CGPost.widen (by simp) (hpa.trans hpb)

theorem post_other (hI : CGInv s) (tag : Nat) (ds : List Nat) :
    CGPost s { s with diags := s.diags ++ [tag] } ds := by
  refine ⟨⟨⟨hI.wfStore, hI.labelEmpty, hI.curIn, hI.nodup, hI.blocksLt, hI.labelsLt,
    hI.freshClean, hI.labelsInj, hI.labelNamed⟩, hI.curOpen⟩,
    le_refl _, fun l bb h => h, fun l bb h => Or.inl h,
    fun l hl bb h3 hin3 => ⟨h3, hin3⟩, ?_, ?_⟩
  · intro id hnin hlt hlab
    exact ⟨hnin, rfl, hlab⟩
  · intro id hin hne
    exact ⟨hin, rfl, fun he => hne he.symm⟩

theorem post_ret (hI : CGInv s) (rv : Option Expr) (s' : CGState)
    (h : EmitReturnStmt rv s = .ok s') (ds : List Nat) : CGPost s s' ds := by
  cases rv with
  | none =>
      by_cases hdv : s.declVoid = true
      · simp only [EmitReturnStmt, CreateRetVoid, hdv, if_true, Except.ok.injEq] at h
        rw [← h]
        exact post_termFresh hI .retVoid ds
      · by_cases hrt : s.retTyVoid = true
        · simp only [EmitReturnStmt, CreateRetVoid, hdv, hrt, if_true, if_false,
            Bool.false_eq_true, Except.ok.injEq] at h
          rw [← h]
          exact post_termFresh hI .retVoid ds
        · simp only [EmitReturnStmt, CreateRet, hdv, hrt, if_false,
            Bool.false_eq_true, Except.ok.injEq] at h
          rw [← h]
          exact post_termFresh hI (.ret .undef) ds
  | some e =>
      have hpa : CGPost s (s.appendInstr (.eval e.payload)) ds :=
        post_append_open hI (.eval e.payload) rfl ds
      by_cases hdv : s.declVoid = true
      · simp only [EmitReturnStmt, EmitExpr, CreateRetVoid, appendInstr_declVoid,
          hdv, if_true, Except.ok.injEq] at h
        rw [← h]
        exact CGPost.widen (by simp)
          (hpa.trans (post_termFresh hpa.inv .retVoid ds))
      · by_cases hsc : e.scalarResult = true
        · simp only [EmitReturnStmt, EmitExpr, CreateRet, appendInstr_declVoid,
            hdv, hsc, if_true, if_false, Bool.false_eq_true, Except.ok.injEq] at h
          rw [← h]
          exact CGPost.widen (by simp)
            (hpa.trans (post_termFresh hpa.inv (.ret (.scalar e.payload)) ds))
        · simp only [EmitReturnStmt, EmitExpr, appendInstr_declVoid,
            hdv, hsc, if_false, Bool.false_eq_true] at h
          exact Except.noConfusion h

/-- Allocating a block without inserting it into the function (the pending
`ifend`/`ifthen`/`ifelse` blocks of `EmitIfStmt`) is invisible to every
observation `CGPost` makes. -/
theorem post_newBlockFloating (hI : CGInv s) (nm : String) (ds : List Nat) :
    CGPost s (s.newBlock nm false).2 ds := by
  have hinv : CGInv (s.newBlock nm false).2 := by
    refine ⟨⟨?_, ?_, ?_, ?_, ?_, ?_, ?_, ?_, ?_⟩, ?_⟩
    · intro id
      rw [newBlock_store]
      by_cases hc : id = s.nextId
      · simp [hc, wfInstrs]
      · simp only [if_neg hc]
        exact hI.wfStore id
    · intro l bb hl hb
      rw [newBlock_labels] at hl
      rw [newBlock_blocks] at hb
      simp at hb
      rw [newBlock_store]
      have hbn : bb ≠ s.nextId := by
        have := hI.labelsLt l bb hl
        omega
      simp only [if_neg hbn]
      exact hI.labelEmpty l bb hl hb
    · rw [newBlock_cur, newBlock_blocks]
      simpa using hI.curIn
    · rw [newBlock_blocks]
      simpa using hI.nodup
    · intro id hid
      rw [newBlock_blocks] at hid
      rw [newBlock_nextId]
      simp at hid
      have := hI.blocksLt id hid
      omega
    · intro l bb hl
      rw [newBlock_labels] at hl
      rw [newBlock_nextId]
      have := hI.labelsLt l bb hl
      omega
    · intro id hid
      rw [newBlock_nextId] at hid
      rw [newBlock_store]
      have h1 : id ≠ s.nextId := by omega
      simp only [if_neg h1]
      exact hI.freshClean id (by omega)
    · intro l1 l2 bb h1 h2
      rw [newBlock_labels] at h1 h2
      exact hI.labelsInj l1 l2 bb h1 h2
    · intro l bb hl
      rw [newBlock_labels] at hl
      rw [newBlock_store]
      have hbn : bb ≠ s.nextId := by
        have := hI.labelsLt l bb hl
        omega
      simp only [if_neg hbn]
      exact hI.labelNamed l bb hl
    · rw [newBlock_cur, newBlock_store]
      have hcn : s.cur ≠ s.nextId := by
        have := hI.blocksLt s.cur hI.curIn
        omega
      simp only [if_neg hcn]
      exact hI.curOpen
  refine ⟨hinv, by rw [newBlock_nextId]; omega, ?_, ?_, ?_, ?_, ?_⟩
  · intro l bb h
    rw [newBlock_labels]
    exact h
  · intro l bb h
    rw [newBlock_labels] at h
    exact Or.inl h
  · intro l hl bb h3 hin3
    rw [newBlock_labels] at h3
    rw [newBlock_blocks] at hin3
    simp at hin3
    exact ⟨h3, hin3⟩
  · intro id hnin hlt hlab
    have h1 : id ≠ s.nextId := by omega
    refine ⟨?_, ?_, ?_⟩
    · rw [newBlock_blocks]
      simpa using hnin
    · rw [newBlock_store]
      simp [h1]
    · intro l
      rw [newBlock_labels]
      exact hlab l
  · intro id hin hne
    have h1 : id ≠ s.nextId := by
      have := hI.blocksLt id hin
      omega
    refine ⟨?_, ?_, ?_⟩
    · rw [newBlock_blocks]
      simpa using hin
    · rw [newBlock_store]
      simp [h1]
    · rw [newBlock_cur]
      exact fun he => hne he.symm

/-- `EmitBlock` on a label's block (the `EmitLabelStmt` step) is a `CGPost`
step for any `ds` containing every label bound to that block. -/
theorem post_emitBlock (hI : CGInv s) (BB : Nat) (ds : List Nat)
    (hnin : BB ∉ s.blocks) (hlt : BB < s.nextId)
    (hopen : lastIsTerm (s.store BB).instrs = false)
    (hlabBB : ∀ l2, s.labels l2 = some BB → l2 ∈ ds)
    (hBBlab : ∃ l2, s.labels l2 = some BB) :
    CGPost s (EmitBlock BB s) ds := by
  have f := emitBlock_facts s BB hI.toCGCore hnin hlt hopen
  refine ⟨f.inv, by rw [f.nextIdEq], ?_, ?_, ?_, ?_, ?_⟩
  · intro l bb h
    rw [f.labelsEq]
    exact h
  · intro l bb h
    rw [f.labelsEq] at h
    exact Or.inl h
  · intro l hl bb h3 hin3
    rw [f.labelsEq] at h3
    rcases f.memOf bb hin3 with hm | hm
    · exact ⟨h3, hm⟩
    · exact absurd (hlabBB l (hm ▸ h3)) hl
  · intro id hnin2 hlt2 hlab
    obtain ⟨l2, hl2⟩ := hBBlab
    have hne : id ≠ BB := fun he => hlab l2 (he ▸ hl2)
    have hnc : id ≠ s.cur := fun he => hnin2 (he ▸ hI.curIn)
    refine ⟨?_, f.storeEq id hnc, ?_⟩
    · intro hmem
      rcases f.memOf id hmem with hm | hm
      · exact hnin2 hm
      · exact hne hm
    · intro l
      rw [f.labelsEq]
      exact hlab l
  · intro id hin hne
    refine ⟨f.memKeep id hin hne, f.storeEq id hne, ?_⟩
    rw [f.curEq]
    exact fun he => hnin (he ▸ hin)

/-- Gluing step for `EmitIfStmt`: starting from a `CGPost`-reachable state `t`,
append one instruction (the just-emitted branch) to the current block and
`EmitBlock` a block `BB` that was freshly allocated during the step (so it is
unplaced, unreferenced, and empty in `t`).  The result is still `CGPost`-
reachable from the original state. -/
theorem CGPost.glue_termPlace {s t : CGState} {ds : List Nat}
    (hp : CGPost s t ds) (BB : Nat) (i : Instr)
    (hBBfresh : s.nextId ≤ BB)
    (hnin : BB ∉ t.blocks) (hlt : BB < t.nextId)
    (hopen : lastIsTerm (t.store BB).instrs = false)
    (hlabBB : ∀ l2, t.labels l2 ≠ some BB) :
    CGPost s (EmitBlock BB (t.appendInstr i)) ds := by
  have core := core_append hp.inv i
  have f := emitBlock_facts (t.appendInstr i) BB core (by simpa using hnin)
    (by simpa using hlt) (by
      rw [appendInstr_store_ne t i BB (fun he => hnin (he ▸ hp.inv.curIn))]
      exact hopen)
  refine ⟨f.inv, ?_, ?_, ?_, ?_, ?_, ?_⟩
  · rw [f.nextIdEq, appendInstr_nextId]
    exact hp.mono
  · intro l bb h
    rw [f.labelsEq, appendInstr_labels]
    exact hp.labsMono l bb h
  · intro l bb h
    rw [f.labelsEq, appendInstr_labels] at h
    exact hp.labsNew l bb h
  · intro l hl bb h3 hin3
    rw [f.labelsEq, appendInstr_labels] at h3
    rcases f.memOf bb hin3 with hm | hm
    · rw [appendInstr_blocks] at hm
      exact hp.undefStable l hl bb h3 hm
    · exact absurd (hm ▸ h3) (hlabBB l)
  · intro id hnin2 hlt2 hlab
    have hu := hp.unplaced id hnin2 hlt2 hlab
    have hne : id ≠ BB := by omega
    have hnc : id ≠ t.cur := fun he => hu.1 (he ▸ hp.inv.curIn)
    refine ⟨?_, ?_, ?_⟩
    · intro hmem
      rcases f.memOf id hmem with hm | hm
      · rw [appendInstr_blocks] at hm
        exact hu.1 hm
      · exact hne hm
    · rw [f.storeEq id (by simpa using hnc), appendInstr_store_ne t i id hnc]
      exact hu.2.1
    · intro l
      rw [f.labelsEq, appendInstr_labels]
      exact hu.2.2 l
  · intro id hin hne
    have hpl := hp.placed id hin hne
    have hnc : id ≠ t.cur := fun he => hpl.2.2 he.symm
    refine ⟨?_, ?_, ?_⟩
    · exact f.memKeep id (by simpa using hpl.1) (by simpa using hnc)
    · rw [f.storeEq id (by simpa using hnc), appendInstr_store_ne t i id hnc]
      exact hpl.2.1
    · rw [f.curEq]
      exact fun he => hnin (he ▸ hpl.1)

/-! ### The master lemma: every successful statement lowering is a `CGPost` step -/

theorem LabelsFresh.mono {ds ds' : List Nat} {s : CGState}
    (hsub : ∀ l, l ∈ ds' → l ∈ ds) (hf : LabelsFresh ds s) : LabelsFresh ds' s :=
  fun l hl bb h => hf l (hsub l hl) bb h

mutual

theorem emitStmt_post (st : Stmt) (s s' : CGState) (hI : CGInv s)
    (hnd : (stmtDefs st).Nodup) (hf : LabelsFresh (stmtDefs st) s)
    (h : EmitStmt st s = .ok s') : CGPost s s' (stmtDefs st) := by
  cases st with
  | null =>
      simp only [EmitStmt, Except.ok.injEq] at h
      rw [← h]
      exact CGPost.refl hI _
  | compound body =>
      simp only [EmitStmt] at h
      simp only [stmtDefs] at hnd hf ⊢
      exact emitStmts_post body s s' hI hnd hf h
  | label l sub =>
      rw [EmitStmt_label_eq] at h
      simp only [EmitLabelStmt] at h
      simp only [stmtDefs] at hnd hf ⊢
      have hndSub : (stmtDefs sub).Nodup := (List.nodup_cons.mp hnd).2
      have hlnot : l ∉ stmtDefs sub := (List.nodup_cons.mp hnd).1
      have hfSub0 : LabelsFresh (stmtDefs sub) s :=
        LabelsFresh.mono (fun l2 h2 => by simp [h2]) hf
      cases hlb : s.labels l with
      | some bb =>
          rw [gbfl_some l s bb hlb] at h
          have hbnin : bb ∉ s.blocks := hf l (by simp) bb hlb
          have hbempty : (s.store bb).instrs = [] := hI.labelEmpty l bb hlb hbnin
          have hopen : lastIsTerm (s.store bb).instrs = false := by
            rw [hbempty]; rfl
          have hp1 : CGPost s (EmitBlock bb s) [l] :=
            post_emitBlock hI bb [l] hbnin (hI.labelsLt l bb hlb) hopen
              (fun l2 h2 => by
                have := hI.labelsInj l2 l bb h2 hlb
                simp [this]) ⟨l, hlb⟩
          have hfSub : LabelsFresh (stmtDefs sub) (EmitBlock bb s) :=
            LabelsFresh.step hfSub0 hp1
              (fun l2 h2 => by
                simp only [List.mem_singleton]
                exact fun he => hlnot (he ▸ h2))
          have hp2 := emitStmt_post sub (EmitBlock bb s) s' hp1.inv hndSub hfSub h
          exact hp1.trans hp2
      | none =>
          have h1 := gbfl_none l s hlb
          have hfst : (getBasicBlockForLabel l s).1 = s.nextId := by rw [h1]
          rw [hfst] at h
          have hpa : CGPost s (getBasicBlockForLabel l s).2 [l] := post_gbflNone hI l hlb [l]
          have hsb : (getBasicBlockForLabel l s).2.blocks = s.blocks := by rw [h1]
          have hsn : (getBasicBlockForLabel l s).2.nextId = s.nextId + 1 := by rw [h1]
          have hsl : ∀ l2, (getBasicBlockForLabel l s).2.labels l2 =
              if l2 = l then some s.nextId else s.labels l2 := by
            intro l2
            rw [h1]
          have hss : (getBasicBlockForLabel l s).2.store s.nextId = ⟨"label", []⟩ := by
            rw [h1]
            simp
          have hp2 : CGPost (getBasicBlockForLabel l s).2
              (EmitBlock s.nextId (getBasicBlockForLabel l s).2) [l] := by
            refine post_emitBlock hpa.inv s.nextId [l] ?_ ?_ ?_ ?_ ?_
            · rw [hsb]
              intro hc
              have := hI.blocksLt s.nextId hc
              omega
            · rw [hsn]
              omega
            · rw [hss]
              rfl
            · intro l2 h2
              rw [hsl l2] at h2
              by_cases hc : l2 = l
              · simp [hc]
              · simp [hc] at h2
                have := hI.labelsLt l2 s.nextId h2
                omega
            · refine ⟨l, ?_⟩
              rw [hsl l]
              simp
          have hp1 : CGPost s (EmitBlock s.nextId (getBasicBlockForLabel l s).2) [l] :=
            CGPost.widen (by simp) (hpa.trans hp2)
          have hfSub : LabelsFresh (stmtDefs sub)
              (EmitBlock s.nextId (getBasicBlockForLabel l s).2) :=
            LabelsFresh.step hfSub0 hp1
              (fun l2 h2 => by
                simp only [List.mem_singleton]
                exact fun he => hlnot (he ▸ h2))
          have hp3 := emitStmt_post sub (EmitBlock s.nextId (getBasicBlockForLabel l s).2)
            s' hp2.inv hndSub hfSub h
          exact hp1.trans hp3
  | goto l =>
      simp only [EmitStmt, Except.ok.injEq] at h
      rw [← h]
      exact post_goto hI l _
  | ret rv =>
      simp only [EmitStmt] at h
      exact post_ret hI rv s' h _
  | exprS e =>
      simp only [EmitStmt, Except.ok.injEq] at h
      rw [← h]
      exact post_append_open hI (.eval e.payload) rfl _
  | other tag =>
      simp only [EmitStmt, Except.ok.injEq] at h
      rw [← h]
      exact post_other hI tag _
  | ifS c t els =>
      rw [EmitStmt_if_eq] at h
      have hcurlt : s.cur < s.nextId := hI.blocksLt s.cur hI.curIn
      cases els with
      | none =>
          have hp0 : CGPost s (s.appendInstr (.eval c.payload)) [] :=
            post_append_open hI (.eval c.payload) rfl []
          set sA := s.appendInstr (.eval c.payload) with hsA
          have hp1 : CGPost sA (sA.newBlock ("ifend") false).2 [] :=
            post_newBlockFloating hp0.inv _ _
          set sB := (sA.newBlock ("ifend") false).2 with hsB
          have hp2 : CGPost sB (sB.newBlock ("ifthen") false).2 [] :=
            post_newBlockFloating hp1.inv _ _
          set sC := (sB.newBlock ("ifthen") false).2 with hsC
          have hpPre : CGPost s sC [] := (hp0.trans hp1).trans hp2
          have hCb : sC.blocks = s.blocks := by
            rw [hsC, hsB, hsA]
            simp [CGState.newBlock]
          have hCc : sC.cur = s.cur := by
            rw [hsC, hsB, hsA]
            simp [CGState.newBlock]
          have hCn : sC.nextId = s.nextId + 2 := by
            rw [hsC, hsB, hsA]
            simp [CGState.newBlock]
          have hCl : sC.labels = s.labels := by
            rw [hsC, hsB, hsA]
            simp [CGState.newBlock]
          have hCsThen : sC.store (s.nextId + 1) = ⟨"ifthen", []⟩ := by
            rw [hsC, hsB, hsA]
            simp [CGState.newBlock]
          have hCsCont : sC.store s.nextId = ⟨"ifend", []⟩ := by
            rw [hsC, hsB, hsA]
            simp [CGState.newBlock, show s.nextId ≠ s.nextId + 1 from by omega]
          set s2 := sC.appendInstr (.condbr c.payload (s.nextId + 1) s.nextId) with hs2
          have hunfold : EmitIfStmt c t none s =
              (match EmitStmt t (EmitBlock (s.nextId + 1) s2) with
                | .error e => .error e
                | .ok sT => .ok (EmitBlock s.nextId (CreateBr s.nextId sT))) := by
            unfold EmitIfStmt
            rfl
          rw [hunfold] at h
          have hpMid : CGPost s (EmitBlock (s.nextId + 1) s2) [] := by
            rw [hs2]
            refine CGPost.glue_termPlace hpPre (s.nextId + 1) _ (by omega) ?_ ?_ ?_ ?_
            · rw [hCb]
              intro hc
              have := hI.blocksLt _ hc
              omega
            · rw [hCn]
              omega
            · rw [hCsThen]
              rfl
            · intro l2 hc
              rw [hCl] at hc
              have := hI.labelsLt l2 _ hc
              omega
          cases hT : EmitStmt t (EmitBlock (s.nextId + 1) s2) with
          | error e =>
              rw [hT] at h
              exact Except.noConfusion h
          | ok sT =>
              rw [hT] at h
              simp only [Except.ok.injEq] at h
              have hMidEq : EmitBlock (s.nextId + 1) s2 =
                  { s2 with blocks := s2.blocks ++ [s.nextId + 1], cur := s.nextId + 1 } := by
                refine EmitBlock_of_term _ _ ?_
                rw [hs2, appendInstr_cur, appendInstr_store_cur, lastIsTerm_concat]
                rfl
              have hMb : (EmitBlock (s.nextId + 1) s2).blocks = s.blocks ++ [s.nextId + 1] := by
                rw [hMidEq]
                show s2.blocks ++ _ = _
                rw [hs2, appendInstr_blocks, hCb]
              have hMn : (EmitBlock (s.nextId + 1) s2).nextId = s.nextId + 2 := by
                rw [hMidEq]
                show s2.nextId = _
                rw [hs2, appendInstr_nextId, hCn]
              have hMl : (EmitBlock (s.nextId + 1) s2).labels = s.labels := by
                rw [hMidEq]
                show s2.labels = _
                rw [hs2, appendInstr_labels, hCl]
              have hMsCont : (EmitBlock (s.nextId + 1) s2).store s.nextId = ⟨"ifend", []⟩ := by
                rw [hMidEq]
                show s2.store s.nextId = _
                rw [hs2, appendInstr_store_ne sC _ s.nextId (by rw [hCc]; omega)]
                exact hCsCont
              have hfT : LabelsFresh (stmtDefs t) (EmitBlock (s.nextId + 1) s2) := by
                refine LabelsFresh.step ?_ hpMid (fun l2 h2 => by simp)
                exact LabelsFresh.mono (fun l2 h2 => by simp [stmtDefs, h2]) hf
              have hndT : (stmtDefs t).Nodup := by
                simp only [stmtDefs] at hnd
                simpa using hnd
              have hpT := emitStmt_post t (EmitBlock (s.nextId + 1) s2) sT hpMid.inv hndT hfT hT
              have hpToT : CGPost s sT (stmtDefs t) := hpMid.trans hpT
              have hcontT := hpT.unplaced s.nextId
                (by
                  rw [hMb]
                  simp only [List.mem_append, List.mem_singleton]
                  rintro (hc | hc)
                  · have := hI.blocksLt _ hc
                    omega
                  · omega)
                (by rw [hMn]; omega)
                (by
                  rw [hMl]
                  intro l2 hc
                  have := hI.labelsLt l2 _ hc
                  omega)
              have hfinal : CGPost s (EmitBlock s.nextId (sT.appendInstr (.br s.nextId)))
                  (stmtDefs t) := by
                refine CGPost.glue_termPlace hpToT s.nextId _ (le_refl _) hcontT.1 ?_ ?_ hcontT.2.2
                · have h2 := hpT.mono
                  rw [hMn] at h2
                  omega
                · rw [hcontT.2.1, hMsCont]
                  rfl
              rw [← h]
              simp only [stmtDefs]
              exact CGPost.widen (by simp) hfinal
      | some e2 =>
          have hp0 : CGPost s (s.appendInstr (.eval c.payload)) [] :=
            post_append_open hI (.eval c.payload) rfl []
          set sA := s.appendInstr (.eval c.payload) with hsA
          have hp1 : CGPost sA (sA.newBlock ("ifend") false).2 [] :=
            post_newBlockFloating hp0.inv _ _
          set sB := (sA.newBlock ("ifend") false).2 with hsB
          have hp2 : CGPost sB (sB.newBlock ("ifthen") false).2 [] :=
            post_newBlockFloating hp1.inv _ _
          set sC := (sB.newBlock ("ifthen") false).2 with hsC
          have hp3 : CGPost sC (sC.newBlock ("ifelse") false).2 [] :=
            post_newBlockFloating hp2.inv _ _
          set sD := (sC.newBlock ("ifelse") false).2 with hsD
          have hpPre : CGPost s sD [] := ((hp0.trans hp1).trans hp2).trans hp3
          have hDb : sD.blocks = s.blocks := by
            rw [hsD, hsC, hsB, hsA]
            simp [CGState.newBlock]
          have hDc : sD.cur = s.cur := by
            rw [hsD, hsC, hsB, hsA]
            simp [CGState.newBlock]
          have hDn : sD.nextId = s.nextId + 3 := by
            rw [hsD, hsC, hsB, hsA]
            simp [CGState.newBlock]
          have hDl : sD.labels = s.labels := by
            rw [hsD, hsC, hsB, hsA]
            simp [CGState.newBlock]
          have hDsThen : sD.store (s.nextId + 1) = ⟨"ifthen", []⟩ := by
            rw [hsD, hsC, hsB, hsA]
            simp [CGState.newBlock, show s.nextId + 1 ≠ s.nextId + 2 from by omega]
          have hDsElse : sD.store (s.nextId + 2) = ⟨"ifelse", []⟩ := by
            rw [hsD, hsC, hsB, hsA]
            simp [CGState.newBlock]
          have hDsCont : sD.store s.nextId = ⟨"ifend", []⟩ := by
            rw [hsD, hsC, hsB, hsA]
            simp [CGState.newBlock, show s.nextId ≠ s.nextId + 1 from by omega,
              show s.nextId ≠ s.nextId + 2 from by omega]
          set s2 := sD.appendInstr (.condbr c.payload (s.nextId + 1) (s.nextId + 2)) with hs2
          have hunfold : EmitIfStmt c t (some e2) s =
              (match EmitStmt t (EmitBlock (s.nextId + 1) s2) with
                | .error e => .error e
                | .ok sT =>
                    match EmitStmt e2 (EmitBlock (s.nextId + 2)
                        (sT.appendInstr (.br s.nextId))) with
                    | .error er => .error er
                    | .ok sE => .ok (EmitBlock s.nextId (sE.appendInstr (.br s.nextId)))) := by
            unfold EmitIfStmt
            rfl
          rw [hunfold] at h
          have hpMid : CGPost s (EmitBlock (s.nextId + 1) s2) [] := by
            rw [hs2]
            refine CGPost.glue_termPlace hpPre (s.nextId + 1) _ (by omega) ?_ ?_ ?_ ?_
            · rw [hDb]
              intro hc
              have := hI.blocksLt _ hc
              omega
            · rw [hDn]
              omega
            · rw [hDsThen]
              rfl
            · intro l2 hc
              rw [hDl] at hc
              have := hI.labelsLt l2 _ hc
              omega
          cases hT : EmitStmt t (EmitBlock (s.nextId + 1) s2) with
          | error e =>
              rw [hT] at h
              exact Except.noConfusion h
          | ok sT =>
              rw [hT] at h
              replace h : (match EmitStmt e2 (EmitBlock (s.nextId + 2)
                      (sT.appendInstr (.br s.nextId))) with
                  | .error er => (.error er : Except LErr CGState)
                  | .ok sE => .ok (EmitBlock s.nextId (sE.appendInstr (.br s.nextId)))) =
                  .ok s' := h
              have hMidEq : EmitBlock (s.nextId + 1) s2 =
                  { s2 with blocks := s2.blocks ++ [s.nextId + 1], cur := s.nextId + 1 } := by
                refine EmitBlock_of_term _ _ ?_
                rw [hs2, appendInstr_cur, appendInstr_store_cur, lastIsTerm_concat]
                rfl
              have hMb : (EmitBlock (s.nextId + 1) s2).blocks = s.blocks ++ [s.nextId + 1] := by
                rw [hMidEq]
                show s2.blocks ++ _ = _
                rw [hs2, appendInstr_blocks, hDb]
              have hMn : (EmitBlock (s.nextId + 1) s2).nextId = s.nextId + 3 := by
                rw [hMidEq]
                show s2.nextId = _
                rw [hs2, appendInstr_nextId, hDn]
              have hMl : (EmitBlock (s.nextId + 1) s2).labels = s.labels := by
                rw [hMidEq]
                show s2.labels = _
                rw [hs2, appendInstr_labels, hDl]
              have hMsCont : (EmitBlock (s.nextId + 1) s2).store s.nextId = ⟨"ifend", []⟩ := by
                rw [hMidEq]
                show s2.store s.nextId = _
                rw [hs2, appendInstr_store_ne sD _ s.nextId (by rw [hDc]; omega)]
                exact hDsCont
              have hMsElse : (EmitBlock (s.nextId + 1) s2).store (s.nextId + 2) =
                  ⟨"ifelse", []⟩ := by
                rw [hMidEq]
                show s2.store (s.nextId + 2) = _
                rw [hs2, appendInstr_store_ne sD _ (s.nextId + 2) (by rw [hDc]; omega)]
                exact hDsElse
              have hndT : (stmtDefs t).Nodup := by
                simp only [stmtDefs] at hnd
                exact (List.nodup_append.mp hnd).1
              have hndE : (stmtDefs e2).Nodup := by
                simp only [stmtDefs] at hnd
                exact (List.nodup_append.mp hnd).2.1
              have hdisjTE : ∀ a, a ∈ stmtDefs t → a ∈ stmtDefs e2 → False := by
                simp only [stmtDefs] at hnd
                exact fun a h1 h2 => (List.nodup_append.mp hnd).2.2 h1 h2
              have hfT : LabelsFresh (stmtDefs t) (EmitBlock (s.nextId + 1) s2) := by
                refine LabelsFresh.step ?_ hpMid (fun l2 h2 => by simp)
                exact LabelsFresh.mono (fun l2 h2 => by simp [stmtDefs, h2]) hf
              have hpT := emitStmt_post t (EmitBlock (s.nextId + 1) s2) sT hpMid.inv hndT hfT hT
              have hpToT : CGPost s sT (stmtDefs t) := hpMid.trans hpT
              have helseT := hpT.unplaced (s.nextId + 2)
                (by
                  rw [hMb]
                  simp only [List.mem_append, List.mem_singleton]
                  rintro (hc | hc)
                  · have := hI.blocksLt _ hc
                    omega
                  · omega)
                (by rw [hMn]; omega)
                (by
                  rw [hMl]
                  intro l2 hc
                  have := hI.labelsLt l2 _ hc
                  omega)
              have hcontT := hpT.unplaced s.nextId
                (by
                  rw [hMb]
                  simp only [List.mem_append, List.mem_singleton]
                  rintro (hc | hc)
                  · have := hI.blocksLt _ hc
                    omega
                  · omega)
                (by rw [hMn]; omega)
                (by
                  rw [hMl]
                  intro l2 hc
                  have := hI.labelsLt l2 _ hc
                  omega)
              have hpMid2 : CGPost s (EmitBlock (s.nextId + 2) (sT.appendInstr (.br s.nextId)))
                  (stmtDefs t) := by
                refine CGPost.glue_termPlace hpToT (s.nextId + 2) _ (by omega) helseT.1 ?_ ?_
                  helseT.2.2
                · have h2 := hpT.mono
                  rw [hMn] at h2
                  omega
                · rw [helseT.2.1, hMsElse]
                  rfl
              cases hE : EmitStmt e2 (EmitBlock (s.nextId + 2)
                  (sT.appendInstr (.br s.nextId))) with
              | error er =>
                  rw [hE] at h
                  exact Except.noConfusion h
              | ok sE =>
                  rw [hE] at h
                  simp only [Except.ok.injEq] at h
                  have hfE : LabelsFresh (stmtDefs e2)
                      (EmitBlock (s.nextId + 2) (sT.appendInstr (.br s.nextId))) := by
                    refine LabelsFresh.step ?_ hpMid2 ?_
                    · exact LabelsFresh.mono (fun l2 h2 => by simp [stmtDefs, h2]) hf
                    · intro l2 h2 hc
                      exact hdisjTE l2 hc h2
                  have hpE := emitStmt_post e2
                    (EmitBlock (s.nextId + 2) (sT.appendInstr (.br s.nextId)))
                    sE hpMid2.inv hndE hfE hE
                  have hpToE : CGPost s sE (stmtDefs t ++ stmtDefs e2) := hpMid2.trans hpE
                  -- transport the continuation-block facts across the else lowering
                  have core2 := core_append hpToT.inv (Instr.br s.nextId)
                  have f2 := emitBlock_facts (sT.appendInstr (.br s.nextId)) (s.nextId + 2) core2
                    (by simpa using helseT.1)
                    (by
                      have h2 := hpT.mono
                      rw [hMn] at h2
                      simpa using (by omega : s.nextId + 2 < sT.nextId))
                    (by
                      rw [appendInstr_store_ne sT _ _
                        (fun he => helseT.1 (by rw [he]; exact hpToT.inv.curIn))]
                      rw [helseT.2.1, hMsElse]
                      rfl)
                  have hcontMid2nin : s.nextId ∉
                      (EmitBlock (s.nextId + 2) (sT.appendInstr (.br s.nextId))).blocks := by
                    intro hc
                    rcases f2.memOf _ hc with hm | hm
                    · rw [appendInstr_blocks] at hm
                      exact hcontT.1 hm
                    · omega
                  have hcontMid2store :
                      (EmitBlock (s.nextId + 2) (sT.appendInstr (.br s.nextId))).store s.nextId =
                        ⟨"ifend", []⟩ := by
                    have hnc : s.nextId ≠ sT.cur := fun he => hcontT.1 (he ▸ hpToT.inv.curIn)
                    rw [f2.storeEq _ (by simpa using hnc), appendInstr_store_ne sT _ _ hnc,
                      hcontT.2.1, hMsCont]
                  have hcontMid2lab : ∀ l2,
                      (EmitBlock (s.nextId + 2) (sT.appendInstr (.br s.nextId))).labels l2 ≠
                        some s.nextId := by
                    intro l2
                    rw [f2.labelsEq, appendInstr_labels]
                    exact hcontT.2.2 l2
                  have hcontE := hpE.unplaced s.nextId hcontMid2nin
                    (by
                      have h2 := hpT.mono
                      rw [hMn] at h2
                      rw [f2.nextIdEq, appendInstr_nextId]
                      omega)
                    hcontMid2lab
                  have hfinal : CGPost s (EmitBlock s.nextId (sE.appendInstr (.br s.nextId)))
                      (stmtDefs t ++ stmtDefs e2) := by
                    refine CGPost.glue_termPlace hpToE s.nextId _ (le_refl _) hcontE.1 ?_ ?_
                      hcontE.2.2
                    · have h2 := hpE.mono
                      have h3 := hpT.mono
                      rw [hMn] at h3
                      rw [f2.nextIdEq, appendInstr_nextId] at h2
                      omega
                    · rw [hcontE.2.1, hcontMid2store]
                      rfl
                  rw [← h]
                  simpa only [stmtDefs] using hfinal

theorem emitStmts_post (ss : List Stmt) (s s' : CGState) (hI : CGInv s)
    (hnd : (stmtsDefs ss).Nodup) (hf : LabelsFresh (stmtsDefs ss) s)
    (h : EmitCompoundStmt ss s = .ok s') : CGPost s s' (stmtsDefs ss) := by
  cases ss with
  | nil =>
      simp only [EmitCompoundStmt, Except.ok.injEq] at h
      rw [← h]
      exact CGPost.refl hI _
  | cons st rest =>
      simp only [EmitCompoundStmt] at h
      cases hh : EmitStmt st s with
      | error e =>
          rw [hh] at h
          exact Except.noConfusion h
      | ok s1 =>
          rw [hh] at h
          simp only [stmtsDefs] at hnd hf ⊢
          have hnd1 : (stmtDefs st).Nodup := (List.nodup_append.mp hnd).1
          have hnd2 : (stmtsDefs rest).Nodup := (List.nodup_append.mp hnd).2.1
          have hdisj : ∀ a, a ∈ stmtDefs st → a ∈ stmtsDefs rest → False :=
            fun a h1 h2 => (List.nodup_append.mp hnd).2.2 h1 h2
          have hf1 : LabelsFresh (stmtDefs st) s :=
            LabelsFresh.mono (fun l2 h2 => by simp [h2]) hf
          have hf2 : LabelsFresh (stmtsDefs rest) s :=
            LabelsFresh.mono (fun l2 h2 => by simp [h2]) hf
          have hp1 := emitStmt_post st s s1 hI hnd1 hf1 hh
          have hf2s : LabelsFresh (stmtsDefs rest) s1 :=
            LabelsFresh.step hf2 hp1 (fun l2 h2 hc => hdisj l2 hc h2)
          have hp2 := emitStmts_post rest s1 s' hp1.inv hnd2 hf2s h
          exact hp1.trans hp2

end

theorem cgInv_init (dv rtv : Bool) : CGInv (initState dv rtv) := by
  refine ⟨⟨?_, ?_, ?_, ?_, ?_, ?_, ?_, ?_, ?_⟩, ?_⟩
  · intro id
    by_cases hc : id = 0 <;> simp [initState, hc, wfInstrs]
  · intro l bb hl
    simp [initState] at hl
  · simp [initState]
  · simp [initState]
  · intro id hid
    simp [initState] at hid
    simp [initState, hid]
  · intro l bb hl
    simp [initState] at hl
  · intro id hid
    simp [initState] at hid
    have : id ≠ 0 := by omega
    simp [initState, this]
  · intro l1 l2 bb h1
    simp [initState] at h1
  · intro l bb hl
    simp [initState] at hl
  · simp [initState, lastIsTerm]

theorem labelsFresh_init (ds : List Nat) (dv rtv : Bool) :
    LabelsFresh ds (initState dv rtv) := by
  intro l hl bb hbb
  simp [initState] at hbb

/-! ### The claims -/

/-- C10: lowering a null statement (`Stmt::NullStmtClass`, line 41) leaves the
entire lowering state unchanged — the very same state is returned: no block is
created or deleted, no instruction is emitted, and the insertion cursor, label
table, and diagnostics are exactly as before the call. -/
theorem c10_null_stmt_noop (s : CGState) : EmitStmt .null s = .ok s := by
  simp [EmitStmt]

/-- C7 counterexample: the dispatcher's default case for a non-expression
statement with no lowering routine prints a diagnostic and `break`s — it does
NOT abort, and it DOES continue lowering subsequent statements.  Concretely,
lowering `{ <unimplemented>; e; }` succeeds, records the diagnostic, and still
lowers the following expression statement into the current block. -/
theorem c7_counterexample :
    (theOk (EmitStmt (.compound [.other 7, .exprS ⟨true, 3⟩]) (initState true true))
        (initState true true)).diags = [7]
    ∧ ((theOk (EmitStmt (.compound [.other 7, .exprS ⟨true, 3⟩]) (initState true true))
        (initState true true)).store 0).instrs = [.eval 3]
    ∧ (EmitStmt (.compound [.other 7, .exprS ⟨true, 3⟩]) (initState true true)).isOk = true := by
  refine ⟨?_, ?_, ?_⟩ <;> decide

/-- C7 (amended): for a statement kind with no registered lowering routine that
is not an expression, the dispatcher emits a diagnostic identifying the
unhandled node (`printf` + `dump`, modelled as recording the node's tag) and
then continues: the call returns successfully with only the diagnostics stream
changed, so it is never a silent no-op, but it does not abort the lowering of
the function. -/
theorem c7_unimplemented_diag (s : CGState) (tag : Nat) :
    EmitStmt (.other tag) s = .ok { s with diags := s.diags ++ [tag] }
    ∧ s.diags ++ [tag] ≠ s.diags := by
  constructor
  · simp [EmitStmt]
  · intro hc
    have := congrArg List.length hc
    simp at this

/-- C8: a return statement in a non-void function whose operand evaluates to an
aggregate (non-scalar) value hits `assert(0 && "FIXME: aggregate return
unimp")`: lowering fails with the explicit not-implemented error, and the
failure aborts the lowering of the rest of the function's statement list
rather than silently emitting an incorrect return. -/
theorem c8_aggregate_return (s : CGState) (e : Expr) (rest : List Stmt)
    (hdv : s.declVoid = false) (hagg : e.scalarResult = false) :
    EmitStmt (.ret (some e)) s = .error .aggregateReturnUnimp
    ∧ EmitStmt (.compound (.ret (some e) :: rest)) s = .error .aggregateReturnUnimp := by
  have h1 : EmitReturnStmt (some e) s = .error .aggregateReturnUnimp := by
    simp [EmitReturnStmt, EmitExpr, hdv, hagg]
  constructor
  · simp only [EmitStmt]
    exact h1
  · simp only [EmitStmt, EmitCompoundStmt]
    rw [h1]

theorem c8_aggregate_return_witness :
    (initState false true).declVoid = false
    ∧ (Expr.mk false 9).scalarResult = false
    ∧ EmitStmt (.ret (some ⟨false, 9⟩)) (initState false true) =
        .error .aggregateReturnUnimp := by
  refine ⟨rfl, rfl, ?_⟩
  exact (c8_aggregate_return (initState false true) ⟨false, 9⟩ [] rfl rfl).1

/-- C2: one `EmitBlock(newBlock)` call, with `prev` the insertion block before
the call (under `EmitBlock`'s calling convention: the target block is not yet
in the function's duplicate-free block list and the insertion block is): if
`prev` is already terminated it is left unchanged; else if it is an empty
unnamed placeholder it is deleted from the block list (so no empty, unreferenced
placeholder opened just before the call survives); otherwise an unconditional
fall-through branch to `newBlock` is appended to it.  In every case `newBlock`
is appended at the end of the block list and becomes the insertion block. -/
theorem c2_emitBlock_protocol (s : CGState) (BB : Nat)
    (hnd : s.blocks.Nodup) (hcur : s.cur ∈ s.blocks) (hnin : BB ∉ s.blocks) :
    (lastIsTerm (s.store s.cur).instrs = true →
        (EmitBlock BB s).store = s.store ∧ s.cur ∈ (EmitBlock BB s).blocks)
    ∧ ((s.store s.cur).instrs = [] → (s.store s.cur).name = "" →
        s.cur ∉ (EmitBlock BB s).blocks)
    ∧ (lastIsTerm (s.store s.cur).instrs = false →
        ¬((s.store s.cur).instrs = [] ∧ (s.store s.cur).name = "") →
        ((EmitBlock BB s).store s.cur).instrs = (s.store s.cur).instrs ++ [.br BB])
    ∧ (EmitBlock BB s).blocks.getLast? = some BB
    ∧ (EmitBlock BB s).cur = BB := by
  have hne : s.cur ≠ BB := fun he => hnin (he ▸ hcur)
  refine ⟨?_, ?_, ?_, ?_, ?_⟩
  · intro hterm
    rw [EmitBlock_of_term BB s hterm]
    exact ⟨rfl, by simp [hcur]⟩
  · intro h1 h2
    rw [EmitBlock_of_placeholder BB s h1 h2]
    simp only [List.mem_append, List.mem_singleton]
    rintro (hc | hc)
    · exact absurd ((hnd.mem_erase_iff).mp hc).1 (by simp)
    · exact hne hc
  · intro hterm hnp
    rw [EmitBlock_of_fallthrough BB s hterm hnp]
    show ((CreateBr BB s).store s.cur).instrs = _
    rw [CreateBr, appendInstr_store_cur]
  · by_cases h1 : lastIsTerm (s.store s.cur).instrs = true
    · rw [EmitBlock_of_term BB s h1]
      simp
    · by_cases h2 : (s.store s.cur).instrs = [] ∧ (s.store s.cur).name = ""
      · rw [EmitBlock_of_placeholder BB s h2.1 h2.2]
        simp
      · rw [EmitBlock_of_fallthrough BB s (by simpa using h1) h2]
        simp
  · by_cases h1 : lastIsTerm (s.store s.cur).instrs = true
    · rw [EmitBlock_of_term BB s h1]
    · by_cases h2 : (s.store s.cur).instrs = [] ∧ (s.store s.cur).name = ""
      · rw [EmitBlock_of_placeholder BB s h2.1 h2.2]
      · rw [EmitBlock_of_fallthrough BB s (by simpa using h1) h2]

theorem c2_emitBlock_protocol_witness :
    ([0] : List Nat).Nodup ∧ (0 : Nat) ∈ ([0] : List Nat) ∧ (3 : Nat) ∉ ([0] : List Nat)
    ∧ ((EmitBlock 3 (initState true true)).store 0).instrs = [.br 3]
    ∧ (EmitBlock 3 (initState true true)).blocks.getLast? = some 3
    ∧ (EmitBlock 3 (initState true true)).cur = 3 := by
  have h := c2_emitBlock_protocol (initState true true) 3 (by decide) (by decide) (by decide)
  refine ⟨by decide, by decide, by decide, ?_, h.2.2.2.1, h.2.2.2.2⟩
  have h3 := h.2.2.1 (by decide) (by decide)
  exact h3

/-- C9: the placeholder-deletion test in `EmitBlock` (line 66) is purely
name-based: the previous insertion block is erased from the block list iff it
has no instructions and no name.  An empty but named block — such as the
`"ifend"` continuation block of an `if` whose continuation is empty — is never
erased; it instead receives an explicit unconditional fall-through branch to
the new block and stays in the list. -/
theorem c9_placeholder_test_name_based (s : CGState) (BB : Nat)
    (hnd : s.blocks.Nodup) (hcur : s.cur ∈ s.blocks) (hnin : BB ∉ s.blocks) :
    (s.cur ∉ (EmitBlock BB s).blocks ↔
      ((s.store s.cur).instrs = [] ∧ (s.store s.cur).name = ""))
    ∧ ((s.store s.cur).instrs = [] → (s.store s.cur).name ≠ "" →
        ((EmitBlock BB s).store s.cur).instrs = [.br BB]
        ∧ s.cur ∈ (EmitBlock BB s).blocks) := by
  have hne : s.cur ≠ BB := fun he => hnin (he ▸ hcur)
  constructor
  · constructor
    · intro hout
      by_contra hc
      apply hout
      by_cases h1 : lastIsTerm (s.store s.cur).instrs = true
      · rw [EmitBlock_of_term BB s h1]
        simp [hcur]
      · rw [EmitBlock_of_fallthrough BB s (by simpa using h1) hc]
        simp [hcur]
    · rintro ⟨h1, h2⟩
      rw [EmitBlock_of_placeholder BB s h1 h2]
      simp only [List.mem_append, List.mem_singleton]
      rintro (hc | hc)
      · exact absurd ((hnd.mem_erase_iff).mp hc).1 (by simp)
      · exact hne hc
  · intro h1 h2
    have hterm : lastIsTerm (s.store s.cur).instrs = false := by
      rw [h1]
      rfl
    have hnp : ¬((s.store s.cur).instrs = [] ∧ (s.store s.cur).name = "") := by
      rintro ⟨_, hc⟩
      exact h2 hc
    rw [EmitBlock_of_fallthrough BB s hterm hnp]
    constructor
    · show ((CreateBr BB s).store s.cur).instrs = _
      rw [CreateBr, appendInstr_store_cur]
      rw [h1]
      rfl
    · simp [hcur]

theorem c9_placeholder_test_name_based_witness :
    (((EmitBlock 3 (initState true true)).store 0).instrs = [.br 3]
      ∧ (0 : Nat) ∈ (EmitBlock 3 (initState true true)).blocks)
    ∧ ((initState true true).store 0).instrs = [] := by
  have h := c9_placeholder_test_name_based (initState true true) 3
    (by decide) (by decide) (by decide)
  exact ⟨h.2 (by decide) (by decide), by decide⟩

/-- C5 counterexample: the claim says a non-void function with no return
operand always gets `ret undef` of the declared type; but when the lowered
(LLVM) return type is void — the "struct return etc." case of lines 146-147 —
the code emits `ret void` instead.  Concretely, in a function declared
non-void whose lowered return type is void, `return;` appends `retVoid`, not
`ret undef`, to the current block. -/
theorem c5_counterexample :
    (initState false true).declVoid = false
    ∧ ((theOk (EmitReturnStmt none (initState false true)) (initState false true)).store 0).instrs
        = [.retVoid]
    ∧ Instr.retVoid ≠ .ret .undef := by
  refine ⟨by decide, by decide, by decide⟩

/-- C5 (amended): `EmitReturnStmt` first evaluates the operand, if present, for
its side effects; then in a function declared void it emits a void return
discarding any operand value; in a non-void function with no operand it emits
a return of an undefined value of the lowered return type — unless that
lowered type is void (struct return lowering), in which case a void return is
emitted; in a non-void function with a present scalar operand it emits a
return carrying the scalar value with no coercion; and afterwards a fresh
anonymous placeholder block is appended to the function and becomes the
insertion block. -/
theorem c5_return_lowering (s : CGState) (rv : Option Expr) (s' : CGState)
    (hcur : s.cur < s.nextId) (h : EmitReturnStmt rv s = .ok s') :
    (s.declVoid = true → ∀ e, rv = some e →
        (s'.store s.cur).instrs = (s.store s.cur).instrs ++ [.eval e.payload, .retVoid])
    ∧ (s.declVoid = true → rv = none →
        (s'.store s.cur).instrs = (s.store s.cur).instrs ++ [.retVoid])
    ∧ (s.declVoid = false → rv = none → s.retTyVoid = false →
        (s'.store s.cur).instrs = (s.store s.cur).instrs ++ [.ret .undef])
    ∧ (s.declVoid = false → rv = none → s.retTyVoid = true →
        (s'.store s.cur).instrs = (s.store s.cur).instrs ++ [.retVoid])
    ∧ (s.declVoid = false → ∀ e, rv = some e → e.scalarResult = true →
        (s'.store s.cur).instrs =
          (s.store s.cur).instrs ++ [.eval e.payload, .ret (.scalar e.payload)])
    ∧ s'.cur = s.nextId ∧ s'.store s'.cur = ⟨"", []⟩ ∧ s'.cur ∈ s'.blocks := by
  have hne : s.cur ≠ s.nextId := by omega
  cases rv with
  | none =>
      by_cases hdv : s.declVoid = true
      · simp only [EmitReturnStmt, CreateRetVoid, hdv, if_true, Except.ok.injEq] at h
        rw [← h]
        refine ⟨fun _ e he => Option.noConfusion he, fun _ _ => ?_,
          fun hc => absurd hdv (by rw [hc]; simp), fun hc => absurd hdv (by rw [hc]; simp),
          fun hc => absurd hdv (by rw [hc]; simp), ?_, ?_, ?_⟩
        · show (((s.appendInstr .retVoid).newBlock ("") true).2.store s.cur).instrs =
            (s.store s.cur).instrs ++ [.retVoid]
          rw [newBlock_store]
          simp only [appendInstr_nextId, if_neg hne]
          rw [appendInstr_store_cur]
        · rfl
        · show ((s.appendInstr .retVoid).newBlock ("") true).2.store s.nextId = _
          rw [newBlock_store]
          simp
        · show s.nextId ∈ ((s.appendInstr .retVoid).newBlock ("") true).2.blocks
          rw [newBlock_blocks]
          simp
      · have hdv2 : s.declVoid = false := by simpa using hdv
        by_cases hrt : s.retTyVoid = true
        · simp only [EmitReturnStmt, CreateRetVoid, hdv, hrt, if_true, if_false,
            Bool.false_eq_true, Except.ok.injEq] at h
          rw [← h]
          refine ⟨fun hc => absurd hc (by rw [hdv2]; simp), fun hc => absurd hc (by rw [hdv2]; simp),
            fun _ _ hc => absurd hrt (by rw [hc]; simp), fun _ _ _ => ?_,
            fun _ e he => Option.noConfusion he, ?_, ?_, ?_⟩
          · show (((s.appendInstr .retVoid).newBlock ("") true).2.store s.cur).instrs =
              (s.store s.cur).instrs ++ [.retVoid]
            rw [newBlock_store]
            simp only [appendInstr_nextId, if_neg hne]
            rw [appendInstr_store_cur]
          · rfl
          · show ((s.appendInstr .retVoid).newBlock ("") true).2.store s.nextId = _
            rw [newBlock_store]
            simp
          · show s.nextId ∈ ((s.appendInstr .retVoid).newBlock ("") true).2.blocks
            rw [newBlock_blocks]
            simp
        · have hrt2 : s.retTyVoid = false := by simpa using hrt
          simp only [EmitReturnStmt, CreateRet, hdv, hrt, if_false,
            Bool.false_eq_true, Except.ok.injEq] at h
          rw [← h]
          refine ⟨fun hc => absurd hc (by rw [hdv2]; simp), fun hc => absurd hc (by rw [hdv2]; simp),
            fun _ _ _ => ?_, fun _ _ hc => absurd hc (by rw [hrt2]; simp),
            fun _ e he => Option.noConfusion he, ?_, ?_, ?_⟩
          · show (((s.appendInstr (.ret .undef)).newBlock ("") true).2.store s.cur).instrs =
              (s.store s.cur).instrs ++ [.ret .undef]
            rw [newBlock_store]
            simp only [appendInstr_nextId, if_neg hne]
            rw [appendInstr_store_cur]
          · rfl
          · show ((s.appendInstr (.ret .undef)).newBlock ("") true).2.store s.nextId = _
            rw [newBlock_store]
            simp
          · show s.nextId ∈ ((s.appendInstr (.ret .undef)).newBlock ("") true).2.blocks
            rw [newBlock_blocks]
            simp
  | some e =>
      by_cases hdv : s.declVoid = true
      · simp only [EmitReturnStmt, EmitExpr, CreateRetVoid, appendInstr_declVoid,
          hdv, if_true, Except.ok.injEq] at h
        rw [← h]
        refine ⟨fun _ e2 he => ?_, fun _ hc => Option.noConfusion hc,
          fun hc => absurd hdv (by rw [hc]; simp), fun hc => absurd hdv (by rw [hc]; simp),
          fun hc => absurd hdv (by rw [hc]; simp), ?_, ?_, ?_⟩
        · cases he
          show ((((s.appendInstr (.eval e.payload)).appendInstr
            .retVoid).newBlock ("") true).2.store s.cur).instrs =
            (s.store s.cur).instrs ++ [.eval e.payload, .retVoid]
          rw [newBlock_store]
          simp only [appendInstr_nextId, if_neg hne]
          rw [appendInstr_store]
          simp only [appendInstr_cur, if_pos rfl]
          rw [appendInstr_store_cur]
          simp
        · rfl
        · show (((s.appendInstr (.eval e.payload)).appendInstr
            .retVoid).newBlock ("") true).2.store _ = _
          rw [newBlock_store]
          simp
        · show _ ∈ (((s.appendInstr (.eval e.payload)).appendInstr
            .retVoid).newBlock ("") true).2.blocks
          rw [newBlock_blocks]
          simp
      · have hdv2 : s.declVoid = false := by simpa using hdv
        by_cases hsc : e.scalarResult = true
        · simp only [EmitReturnStmt, EmitExpr, CreateRet, appendInstr_declVoid,
            hdv, hsc, if_true, if_false, Bool.false_eq_true, Except.ok.injEq] at h
          rw [← h]
          refine ⟨fun hc => absurd hc (by rw [hdv2]; simp), fun hc => absurd hc (by rw [hdv2]; simp),
            fun _ hc => Option.noConfusion hc, fun _ hc => Option.noConfusion hc,
            fun _ e2 he _ => ?_, ?_, ?_, ?_⟩
          · cases he
            show ((((s.appendInstr (.eval e.payload)).appendInstr
              (.ret (.scalar e.payload))).newBlock ("") true).2.store s.cur).instrs =
              (s.store s.cur).instrs ++ [.eval e.payload, .ret (.scalar e.payload)]
            rw [newBlock_store]
            simp only [appendInstr_nextId, if_neg hne]
            rw [appendInstr_store]
            simp only [appendInstr_cur, if_pos rfl]
            rw [appendInstr_store_cur]
            simp
          · rfl
          · show (((s.appendInstr (.eval e.payload)).appendInstr
              (.ret (.scalar e.payload))).newBlock ("") true).2.store _ = _
            rw [newBlock_store]
            simp
          · show _ ∈ (((s.appendInstr (.eval e.payload)).appendInstr
              (.ret (.scalar e.payload))).newBlock ("") true).2.blocks
            rw [newBlock_blocks]
            simp
        · simp only [EmitReturnStmt, EmitExpr, appendInstr_declVoid,
            hdv, hsc, if_false, Bool.false_eq_true] at h
          exact Except.noConfusion h

theorem c5_return_lowering_witness :
    (initState true false).cur < (initState true false).nextId
    ∧ (theOk (EmitReturnStmt none (initState true false)) (initState true false)).cur = 1
    ∧ ((theOk (EmitReturnStmt none (initState true false)) (initState true false)).store 0).instrs
        = [.retVoid] := by
  have hok : EmitReturnStmt none (initState true false) =
      .ok (theOk (EmitReturnStmt none (initState true false)) (initState true false)) := rfl
  have h := c5_return_lowering (initState true false) none
    (theOk (EmitReturnStmt none (initState true false)) (initState true false))
    (by decide) hok
  exact ⟨by decide, h.2.2.2.2.2.1, by decide⟩

/-- C1: for every statement tree whose label definitions are duplicate-free
(guaranteed by upstream semantic analysis) and not already placed, lowering it
with `EmitStmt` from any state satisfying the lowering invariant yields a
block list in which every block's terminator, if it has any, is its last
instruction — so no block has an instruction after a terminator and no block
holds more than one terminator. -/
theorem c1_terminator_invariant (st : Stmt) (s s' : CGState) (hI : CGInv s)
    (hnd : (stmtDefs st).Nodup) (hf : LabelsFresh (stmtDefs st) s)
    (h : EmitStmt st s = .ok s') :
    ∀ bb, bb ∈ s'.blocks → terminatorLastOnly (s'.store bb).instrs := by
  have hp := emitStmt_post st s s' hI hnd hf h
  intro bb hbb
  exact wfInstrs_terminatorLastOnly _ (hp.inv.wfStore bb)

theorem c1_terminator_invariant_witness :
    (stmtDefs sampleProg).Nodup
    ∧ (0 : Nat) ∈ (theOk (EmitStmt sampleProg (initState true true))
        (initState true true)).blocks
    ∧ terminatorLastOnly ((theOk (EmitStmt sampleProg (initState true true))
        (initState true true)).store 0).instrs := by
  have h := c1_terminator_invariant sampleProg (initState true true)
    (theOk (EmitStmt sampleProg (initState true true)) (initState true true))
    (cgInv_init true true) (by decide) (labelsFresh_init _ true true) rfl
  exact ⟨by decide, by decide, h 0 (by decide)⟩

/-- C3: label identity stability.  A label already recorded in the table
resolves to the recorded block with no state change (so later references never
replace the block); a first reference creates and records a block; and across
the lowering of any statement tree an existing label binding is preserved
unchanged.  Hence all gotos referencing a label plus its own label statement,
in any visitation order, resolve to the identical block. -/
theorem c3_label_identity_stability :
    (∀ (s : CGState) (l bb : Nat), s.labels l = some bb →
        getBasicBlockForLabel l s = (bb, s))
    ∧ (∀ (s : CGState) (l : Nat), s.labels l = none →
        (getBasicBlockForLabel l s).2.labels l = some (getBasicBlockForLabel l s).1)
    ∧ (∀ (st : Stmt) (s s' : CGState), CGInv s → (stmtDefs st).Nodup →
        LabelsFresh (stmtDefs st) s → EmitStmt st s = .ok s' →
        ∀ l bb, s.labels l = some bb → s'.labels l = some bb) := by
  refine ⟨fun s l bb h => gbfl_some l s bb h, ?_, ?_⟩
  · intro s l h
    rw [gbfl_none l s h]
    simp
  · intro st s s' hI hnd hf h l bb hl
    exact (emitStmt_post st s s' hI hnd hf h).labsMono l bb hl

theorem c3_label_identity_stability_witness :
    ((getBasicBlockForLabel 5 (initState true true)).2.labels 5 = some 1
    ∧ getBasicBlockForLabel 5 ((getBasicBlockForLabel 5 (initState true true)).2) =
        (1, (getBasicBlockForLabel 5 (initState true true)).2)
    ∧ (theOk (EmitStmt (.goto 7) ((getBasicBlockForLabel 5 (initState true true)).2))
        ((getBasicBlockForLabel 5 (initState true true)).2)).labels 5 = some 1) := by
  have h1 := c3_label_identity_stability.2.1 (initState true true) 5 rfl
  have h2 := c3_label_identity_stability.1
    ((getBasicBlockForLabel 5 (initState true true)).2) 5 1 (by decide)
  have h3 := c3_label_identity_stability.2.2 (.goto 7)
    ((getBasicBlockForLabel 5 (initState true true)).2)
    (theOk (EmitStmt (.goto 7) ((getBasicBlockForLabel 5 (initState true true)).2))
      ((getBasicBlockForLabel 5 (initState true true)).2))
    ((post_gbflNone (cgInv_init true true) 5 rfl []).inv)
    (by decide)
    (by intro l2 hl2 bb hbb; simp [stmtDefs] at hl2)
    rfl 5 1 (by decide)
  exact ⟨by decide, h2, h3⟩

/-- C6: `EmitGotoStmt` appends an unconditional branch from the current block
to the label's block — creating and recording that block on a forward
reference — and then makes a fresh anonymous placeholder block current, so
statements lowered after the goto land in a block with no incoming edges
(provided no earlier instruction targeted a not-yet-allocated block, which the
lowering never does) while already-lowered blocks other than the one just
terminated are left untouched. -/
theorem c6_goto_lowering (s : CGState) (l : Nat) (hI : CGInv s)
    (htgt : ∀ id i, i ∈ (s.store id).instrs → ∀ tgt, tgt ∈ i.targets → tgt < s.nextId) :
    ((EmitGotoStmt l s).store s.cur).instrs =
        (s.store s.cur).instrs ++ [.br (getBasicBlockForLabel l s).1]
    ∧ (EmitGotoStmt l s).labels l = some (getBasicBlockForLabel l s).1
    ∧ (EmitGotoStmt l s).store (EmitGotoStmt l s).cur = ⟨"", []⟩
    ∧ (EmitGotoStmt l s).cur ∈ (EmitGotoStmt l s).blocks
    ∧ s.nextId ≤ (EmitGotoStmt l s).cur
    ∧ (∀ id, id ∈ (EmitGotoStmt l s).blocks → ∀ i, i ∈ ((EmitGotoStmt l s).store id).instrs →
        ∀ tgt, tgt ∈ i.targets → tgt ≠ (EmitGotoStmt l s).cur)
    ∧ (∀ id, id ≠ s.cur → id < s.nextId → (EmitGotoStmt l s).store id = s.store id) := by
  have hcur : s.cur < s.nextId := hI.blocksLt s.cur hI.curIn
  cases hl : s.labels l with
  | some bb0 =>
      have hfst : (getBasicBlockForLabel l s).1 = bb0 := by rw [gbfl_some l s bb0 hl]
      have hbb0 : bb0 < s.nextId := hI.labelsLt l bb0 hl
      have he : EmitGotoStmt l s =
          { ((s.appendInstr (.br bb0)).newBlock ("") true).2 with cur := s.nextId } := by
        simp [EmitGotoStmt, gbfl_some l s bb0 hl, CreateBr]
      rw [hfst, he]
      have hstore : ∀ id, ({ ((s.appendInstr (.br bb0)).newBlock ("") true).2 with
          cur := s.nextId } : CGState).store id =
          if id = s.nextId then ⟨"", []⟩ else (s.appendInstr (.br bb0)).store id := by
        intro id
        show ((s.appendInstr (.br bb0)).newBlock ("") true).2.store id = _
        rw [newBlock_store]
        simp
      have hblocks : ({ ((s.appendInstr (.br bb0)).newBlock ("") true).2 with
          cur := s.nextId } : CGState).blocks = s.blocks ++ [s.nextId] := by
        show ((s.appendInstr (.br bb0)).newBlock ("") true).2.blocks = _
        rw [newBlock_blocks]
        simp
      refine ⟨?_, hl, ?_, ?_, le_refl _, ?_, ?_⟩
      · rw [hstore s.cur]
        rw [if_neg (show ¬(s.cur = s.nextId) from by omega)]
        rw [appendInstr_store_cur]
      · rw [hstore s.nextId]
        simp
      · rw [hblocks]
        simp
      · intro id hid i hi tgt htg
        rw [hblocks] at hid
        rw [hstore id] at hi
        simp only [List.mem_append, List.mem_singleton] at hid
        show tgt ≠ s.nextId
        by_cases hidn : id = s.nextId
        · simp [hidn] at hi
        · rw [if_neg hidn] at hi
          rw [appendInstr_store] at hi
          by_cases hidc : id = s.cur
          · rw [if_pos hidc] at hi
            simp only [List.mem_append, List.mem_singleton] at hi
            rcases hi with hi | hi
            · have := htgt id i (hidc ▸ hi) tgt htg
              omega
            · rw [hi] at htg
              simp [Instr.targets] at htg
              omega
          · rw [if_neg hidc] at hi
            have := htgt id i hi tgt htg
            omega
      · intro id hne hlt
        rw [hstore id]
        rw [if_neg (show ¬(id = s.nextId) from by omega)]
        rw [appendInstr_store_ne s _ id hne]
  | none =>
      have hfst : (getBasicBlockForLabel l s).1 = s.nextId := by rw [gbfl_none l s hl]
      set sa : CGState :=
        { s with
          nextId := s.nextId + 1,
          store := fun id => if id = s.nextId then ⟨"label", []⟩ else s.store id,
          labels := fun l2 => if l2 = l then some s.nextId else s.labels l2 } with hsa
      have he : EmitGotoStmt l s =
          { ((sa.appendInstr (.br s.nextId)).newBlock ("") true).2 with
            cur := s.nextId + 1 } := by
        simp [EmitGotoStmt, gbfl_none l s hl, CreateBr, hsa]
      rw [hfst, he]
      have hsacur : sa.cur = s.cur := by rw [hsa]
      have hsanext : sa.nextId = s.nextId + 1 := by rw [hsa]
      have hsablocks : sa.blocks = s.blocks := by rw [hsa]
      have hsastore_cur : sa.store s.cur = s.store s.cur := by
        rw [hsa]
        show (if s.cur = s.nextId then (⟨"label", []⟩ : BlockData) else s.store s.cur) = _
        rw [if_neg (show ¬(s.cur = s.nextId) from by omega)]
      have hstore2 : ∀ id, (sa.appendInstr (.br s.nextId)).store id =
          if id = s.cur then
            { s.store s.cur with instrs := (s.store s.cur).instrs ++ [.br s.nextId] }
          else if id = s.nextId then ⟨"label", []⟩
          else s.store id := by
        intro id
        rw [appendInstr_store, hsacur]
        by_cases hc : id = s.cur
        · rw [if_pos hc, if_pos hc, hc, hsastore_cur]
        · rw [if_neg hc, if_neg hc, hsa]
      have hstoreAll : ∀ id, ({ ((sa.appendInstr (.br s.nextId)).newBlock ("") true).2 with
          cur := s.nextId + 1 } : CGState).store id =
          if id = s.nextId + 1 then ⟨"", []⟩
          else if id = s.cur then
            { s.store s.cur with instrs := (s.store s.cur).instrs ++ [.br s.nextId] }
          else if id = s.nextId then ⟨"label", []⟩
          else s.store id := by
        intro id
        show ((sa.appendInstr (.br s.nextId)).newBlock ("") true).2.store id = _
        rw [newBlock_store, hstore2 id]
        simp only [appendInstr_nextId, hsanext]
      have hblocks : ({ ((sa.appendInstr (.br s.nextId)).newBlock ("") true).2 with
          cur := s.nextId + 1 } : CGState).blocks = s.blocks ++ [s.nextId + 1] := by
        show ((sa.appendInstr (.br s.nextId)).newBlock ("") true).2.blocks = _
        rw [newBlock_blocks]
        simp [appendInstr_nextId, hsanext, hsablocks]
      refine ⟨?_, ?_, ?_, ?_, ?_, ?_, ?_⟩
      · rw [hstoreAll s.cur]
        rw [if_neg (show ¬(s.cur = s.nextId + 1) from by omega), if_pos rfl]
      · show ((sa.appendInstr (.br s.nextId)).newBlock ("") true).2.labels l = _
        rw [newBlock_labels, appendInstr_labels, hsa]
        show (if l = l then some s.nextId else s.labels l) = _
        rw [if_pos rfl]
      · rw [hstoreAll (s.nextId + 1)]
        rw [if_pos rfl]
      · rw [hblocks]
        simp
      · show s.nextId ≤ s.nextId + 1
        omega
      · intro id hid i hi tgt htg
        rw [hblocks] at hid
        rw [hstoreAll id] at hi
        simp only [List.mem_append, List.mem_singleton] at hid
        show tgt ≠ s.nextId + 1
        have hidm : id ≠ s.nextId := by
          rcases hid with hid | hid
          · have := hI.blocksLt id hid
            omega
          · omega
        by_cases hidn : id = s.nextId + 1
        · rw [if_pos hidn] at hi
          simp at hi
        · rw [if_neg hidn] at hi
          by_cases hidc : id = s.cur
          · rw [if_pos hidc] at hi
            simp only [List.mem_append, List.mem_singleton] at hi
            rcases hi with hi | hi
            · have := htgt s.cur i hi tgt htg
              omega
            · rw [hi] at htg
              simp [Instr.targets] at htg
              omega
          · rw [if_neg hidc, if_neg hidm] at hi
            have := htgt id i hi tgt htg
            omega
      · intro id hne hlt
        rw [hstoreAll id]
        rw [if_neg (show ¬(id = s.nextId + 1) from by omega), if_neg hne,
          if_neg (show ¬(id = s.nextId) from by omega)]

theorem c6_goto_lowering_witness :
    ((EmitGotoStmt 4 (initState true true)).store 0).instrs = [.br 1]
    ∧ (EmitGotoStmt 4 (initState true true)).labels 4 = some 1
    ∧ (EmitGotoStmt 4 (initState true true)).cur = 2
    ∧ (EmitGotoStmt 4 (initState true true)).store 2 = ⟨"", []⟩ := by
  have h := c6_goto_lowering (initState true true) 4 (cgInv_init true true)
    (by
      intro id i hi tgt htg
      by_cases hc : id = 0
      · simp [initState, hc] at hi
      · simp [initState, hc] at hi)
  refine ⟨?_, ?_, by decide, ?_⟩
  · have h1 := h.1
    simpa [initState] using h1
  · have h2 := h.2.1
    simpa using h2
  · have h3 := h.2.2.1
    simpa using h3

/-- C4: lowering an if statement evaluates the condition in the current block
and ends that block with a two-way conditional branch targeting the `ifthen`
block and, if an else branch exists, the `ifelse` block, otherwise the `ifend`
continuation directly; it allocates exactly 2 fresh blocks (then, continue)
without an else branch and exactly 3 (then, else, continue) with one — the
state in which the then body is lowered has allocation counter advanced by
exactly that amount; each arm is lowered into its own fresh block and the
block that is current after the arm receives an unconditional branch to the
continuation; and the continuation block (named `"ifend"`) is current and in
the function afterwards. -/
theorem c4_if_lowering (s s' : CGState) (c : Expr) (t : Stmt) (els : Option Stmt)
    (hI : CGInv s) (hnd : (stmtDefs (Stmt.ifS c t els)).Nodup)
    (hf : LabelsFresh (stmtDefs (Stmt.ifS c t els)) s)
    (h : EmitStmt (.ifS c t els) s = .ok s') :
    (s'.store s.cur).instrs = (s.store s.cur).instrs ++
        [.eval c.payload,
         .condbr c.payload (s.nextId + 1) (if els.isSome then s.nextId + 2 else s.nextId)]
    ∧ (∃ sMid sT, sMid.cur = s.nextId + 1
        ∧ sMid.store (s.nextId + 1) = ⟨"ifthen", []⟩
        ∧ sMid.nextId = s.nextId + (if els.isSome then 3 else 2)
        ∧ EmitStmt t sMid = .ok sT
        ∧ (s'.store sT.cur).instrs = (sT.store sT.cur).instrs ++ [.br s.nextId]
        ∧ (els = none → s'.nextId = sT.nextId))
    ∧ (∀ e2, els = some e2 → ∃ sMid2 sE, sMid2.cur = s.nextId + 2
        ∧ sMid2.store (s.nextId + 2) = ⟨"ifelse", []⟩
        ∧ EmitStmt e2 sMid2 = .ok sE
        ∧ (s'.store sE.cur).instrs = (sE.store sE.cur).instrs ++ [.br s.nextId]
        ∧ s'.nextId = sE.nextId)
    ∧ s'.cur = s.nextId ∧ s.nextId ∈ s'.blocks ∧ (s'.store s.nextId).name = "ifend" := by
  rw [EmitStmt_if_eq] at h
  have hcurlt : s.cur < s.nextId := hI.blocksLt s.cur hI.curIn
  cases els with
  | none =>
      have hp0 : CGPost s (s.appendInstr (.eval c.payload)) [] :=
        post_append_open hI (.eval c.payload) rfl []
      set sA := s.appendInstr (.eval c.payload) with hsA
      have hp1 : CGPost sA (sA.newBlock ("ifend") false).2 [] :=
        post_newBlockFloating hp0.inv _ _
      set sB := (sA.newBlock ("ifend") false).2 with hsB
      have hp2 : CGPost sB (sB.newBlock ("ifthen") false).2 [] :=
        post_newBlockFloating hp1.inv _ _
      set sC := (sB.newBlock ("ifthen") false).2 with hsC
      have hpPre : CGPost s sC [] := (hp0.trans hp1).trans hp2
      have hCb : sC.blocks = s.blocks := by
        rw [hsC, hsB, hsA]
        simp [CGState.newBlock]
      have hCc : sC.cur = s.cur := by
        rw [hsC, hsB, hsA]
        simp [CGState.newBlock]
      have hCn : sC.nextId = s.nextId + 2 := by
        rw [hsC, hsB, hsA]
        simp [CGState.newBlock]
      have hCl : sC.labels = s.labels := by
        rw [hsC, hsB, hsA]
        simp [CGState.newBlock]
      have hCsThen : sC.store (s.nextId + 1) = ⟨"ifthen", []⟩ := by
        rw [hsC, hsB, hsA]
        simp [CGState.newBlock]
      have hCsCont : sC.store s.nextId = ⟨"ifend", []⟩ := by
        rw [hsC, hsB, hsA]
        simp [CGState.newBlock, show s.nextId ≠ s.nextId + 1 from by omega]
      have hCsCur : sC.store s.cur =
          { s.store s.cur with instrs := (s.store s.cur).instrs ++ [.eval c.payload] } := by
        rw [hsC, hsB, hsA]
        simp [CGState.newBlock, CGState.appendInstr,
          show s.cur ≠ s.nextId from by omega, show s.cur ≠ s.nextId + 1 from by omega]
      set s2 := sC.appendInstr (.condbr c.payload (s.nextId + 1) s.nextId) with hs2
      have hunfold : EmitIfStmt c t none s =
          (match EmitStmt t (EmitBlock (s.nextId + 1) s2) with
            | .error e => .error e
            | .ok sT => .ok (EmitBlock s.nextId (sT.appendInstr (.br s.nextId)))) := by
        unfold EmitIfStmt
        rfl
      rw [hunfold] at h
      have hpMid : CGPost s (EmitBlock (s.nextId + 1) s2) [] := by
        rw [hs2]
        refine CGPost.glue_termPlace hpPre (s.nextId + 1) _ (by omega) ?_ ?_ ?_ ?_
        · rw [hCb]
          intro hc
          have := hI.blocksLt _ hc
          omega
        · rw [hCn]
          omega
        · rw [hCsThen]
          rfl
        · intro l2 hc
          rw [hCl] at hc
          have := hI.labelsLt l2 _ hc
          omega
      cases hT : EmitStmt t (EmitBlock (s.nextId + 1) s2) with
      | error e =>
          rw [hT] at h
          exact Except.noConfusion h
      | ok sT =>
          rw [hT] at h
          simp only [Except.ok.injEq] at h
          have hMidEq : EmitBlock (s.nextId + 1) s2 =
              { s2 with blocks := s2.blocks ++ [s.nextId + 1], cur := s.nextId + 1 } := by
            refine EmitBlock_of_term _ _ ?_
            rw [hs2, appendInstr_cur, appendInstr_store_cur, lastIsTerm_concat]
            rfl
          have hMb : (EmitBlock (s.nextId + 1) s2).blocks = s.blocks ++ [s.nextId + 1] := by
            rw [hMidEq]
            show s2.blocks ++ _ = _
            rw [hs2, appendInstr_blocks, hCb]
          have hMc : (EmitBlock (s.nextId + 1) s2).cur = s.nextId + 1 := by
            rw [hMidEq]
          have hMn : (EmitBlock (s.nextId + 1) s2).nextId = s.nextId + 2 := by
            rw [hMidEq]
            show s2.nextId = _
            rw [hs2, appendInstr_nextId, hCn]
          have hMl : (EmitBlock (s.nextId + 1) s2).labels = s.labels := by
            rw [hMidEq]
            show s2.labels = _
            rw [hs2, appendInstr_labels, hCl]
          have hMsCont : (EmitBlock (s.nextId + 1) s2).store s.nextId = ⟨"ifend", []⟩ := by
            rw [hMidEq]
            show s2.store s.nextId = _
            rw [hs2, appendInstr_store_ne sC _ s.nextId (by rw [hCc]; omega)]
            exact hCsCont
          have hMsThen : (EmitBlock (s.nextId + 1) s2).store (s.nextId + 1) =
              ⟨"ifthen", []⟩ := by
            rw [hMidEq]
            show s2.store (s.nextId + 1) = _
            rw [hs2, appendInstr_store_ne sC _ (s.nextId + 1) (by rw [hCc]; omega)]
            exact hCsThen
          have hMsCur : (EmitBlock (s.nextId + 1) s2).store s.cur =
              { s.store s.cur with instrs := (s.store s.cur).instrs ++
                  [.eval c.payload, .condbr c.payload (s.nextId + 1) s.nextId] } := by
            rw [hMidEq]
            show s2.store s.cur = _
            rw [hs2, appendInstr_store]
            rw [hCc, if_pos rfl, hCsCur]
            simp
          have hfT : LabelsFresh (stmtDefs t) (EmitBlock (s.nextId + 1) s2) := by
            refine LabelsFresh.step ?_ hpMid (fun l2 h2 => by simp)
            exact LabelsFresh.mono (fun l2 h2 => by simp [stmtDefs, h2]) hf
          have hndT : (stmtDefs t).Nodup := by
            simp only [stmtDefs] at hnd
            simpa using hnd
          have hpT := emitStmt_post t (EmitBlock (s.nextId + 1) s2) sT hpMid.inv hndT hfT hT
          have hplacedCur := hpT.placed s.cur
            (by rw [hMb]; simp [hI.curIn]) (by rw [hMc]; omega)
          have hcontT := hpT.unplaced s.nextId
            (by
              rw [hMb]
              simp only [List.mem_append, List.mem_singleton]
              rintro (hc | hc)
              · have := hI.blocksLt _ hc
                omega
              · omega)
            (by rw [hMn]; omega)
            (by
              rw [hMl]
              intro l2 hc
              have := hI.labelsLt l2 _ hc
              omega)
          have hnotTcur : s.nextId ≠ sT.cur := fun he => hcontT.1 (he ▸ hpT.inv.curIn)
          have hfinEq : EmitBlock s.nextId (sT.appendInstr (.br s.nextId)) =
              { sT.appendInstr (.br s.nextId) with
                blocks := (sT.appendInstr (.br s.nextId)).blocks ++ [s.nextId],
                cur := s.nextId } := by
            refine EmitBlock_of_term _ _ ?_
            rw [appendInstr_cur, appendInstr_store_cur, lastIsTerm_concat]
            rfl
          rw [← h, hfinEq]
          refine ⟨?_, ⟨EmitBlock (s.nextId + 1) s2, sT, hMc, hMsThen, ?_, hT, ?_, ?_⟩,
            ?_, rfl, ?_, ?_⟩
          · show ((sT.appendInstr (.br s.nextId)).store s.cur).instrs = _
            rw [appendInstr_store_ne sT _ s.cur (fun he => hplacedCur.2.2 he.symm)]
            rw [hplacedCur.2.1, hMsCur]
            simp
          · rw [hMn]
            simp
          · show ((sT.appendInstr (.br s.nextId)).store sT.cur).instrs = _
            rw [appendInstr_store_cur]
          · intro _
            show (sT.appendInstr (.br s.nextId)).nextId = _
            rw [appendInstr_nextId]
          · intro e2 he
            exact Option.noConfusion he
          · show s.nextId ∈ (sT.appendInstr (.br s.nextId)).blocks ++ [s.nextId]
            simp
          · show ((sT.appendInstr (.br s.nextId)).store s.nextId).name = _
            rw [appendInstr_store_ne sT _ s.nextId hnotTcur]
            rw [hcontT.2.1, hMsCont]
  | some e2 =>
      have hp0 : CGPost s (s.appendInstr (.eval c.payload)) [] :=
        post_append_open hI (.eval c.payload) rfl []
      set sA := s.appendInstr (.eval c.payload) with hsA
      have hp1 : CGPost sA (sA.newBlock ("ifend") false).2 [] :=
        post_newBlockFloating hp0.inv _ _
      set sB := (sA.newBlock ("ifend") false).2 with hsB
      have hp2 : CGPost sB (sB.newBlock ("ifthen") false).2 [] :=
        post_newBlockFloating hp1.inv _ _
      set sC := (sB.newBlock ("ifthen") false).2 with hsC
      have hp3 : CGPost sC (sC.newBlock ("ifelse") false).2 [] :=
        post_newBlockFloating hp2.inv _ _
      set sD := (sC.newBlock ("ifelse") false).2 with hsD
      have hpPre : CGPost s sD [] := ((hp0.trans hp1).trans hp2).trans hp3
      have hDb : sD.blocks = s.blocks := by
        rw [hsD, hsC, hsB, hsA]
        simp [CGState.newBlock]
      have hDc : sD.cur = s.cur := by
        rw [hsD, hsC, hsB, hsA]
        simp [CGState.newBlock]
      have hDn : sD.nextId = s.nextId + 3 := by
        rw [hsD, hsC, hsB, hsA]
        simp [CGState.newBlock]
      have hDl : sD.labels = s.labels := by
        rw [hsD, hsC, hsB, hsA]
        simp [CGState.newBlock]
      have hDsThen : sD.store (s.nextId + 1) = ⟨"ifthen", []⟩ := by
        rw [hsD, hsC, hsB, hsA]
        simp [CGState.newBlock, show s.nextId + 1 ≠ s.nextId + 2 from by omega]
      have hDsElse : sD.store (s.nextId + 2) = ⟨"ifelse", []⟩ := by
        rw [hsD, hsC, hsB, hsA]
        simp [CGState.newBlock]
      have hDsCont : sD.store s.nextId = ⟨"ifend", []⟩ := by
        rw [hsD, hsC, hsB, hsA]
        simp [CGState.newBlock, show s.nextId ≠ s.nextId + 1 from by omega,
          show s.nextId ≠ s.nextId + 2 from by omega]
      have hDsCur : sD.store s.cur =
          { s.store s.cur with instrs := (s.store s.cur).instrs ++ [.eval c.payload] } := by
        rw [hsD, hsC, hsB, hsA]
        simp [CGState.newBlock, CGState.appendInstr,
          show s.cur ≠ s.nextId from by omega, show s.cur ≠ s.nextId + 1 from by omega,
          show s.cur ≠ s.nextId + 2 from by omega]
      set s2 := sD.appendInstr (.condbr c.payload (s.nextId + 1) (s.nextId + 2)) with hs2
      have hunfold : EmitIfStmt c t (some e2) s =
          (match EmitStmt t (EmitBlock (s.nextId + 1) s2) with
            | .error e => .error e
            | .ok sT =>
                match EmitStmt e2 (EmitBlock (s.nextId + 2)
                    (sT.appendInstr (.br s.nextId))) with
                | .error er => .error er
                | .ok sE => .ok (EmitBlock s.nextId (sE.appendInstr (.br s.nextId)))) := by
        unfold EmitIfStmt
        rfl
      rw [hunfold] at h
      have hpMid : CGPost s (EmitBlock (s.nextId + 1) s2) [] := by
        rw [hs2]
        refine CGPost.glue_termPlace hpPre (s.nextId + 1) _ (by omega) ?_ ?_ ?_ ?_
        · rw [hDb]
          intro hc
          have := hI.blocksLt _ hc
          omega
        · rw [hDn]
          omega
        · rw [hDsThen]
          rfl
        · intro l2 hc
          rw [hDl] at hc
          have := hI.labelsLt l2 _ hc
          omega
      cases hT : EmitStmt t (EmitBlock (s.nextId + 1) s2) with
      | error e =>
          rw [hT] at h
          exact Except.noConfusion h
      | ok sT =>
          rw [hT] at h
          replace h : (match EmitStmt e2 (EmitBlock (s.nextId + 2)
                  (sT.appendInstr (.br s.nextId))) with
              | .error er => (.error er : Except LErr CGState)
              | .ok sE => .ok (EmitBlock s.nextId (sE.appendInstr (.br s.nextId)))) =
              .ok s' := h
          have hMidEq : EmitBlock (s.nextId + 1) s2 =
              { s2 with blocks := s2.blocks ++ [s.nextId + 1], cur := s.nextId + 1 } := by
            refine EmitBlock_of_term _ _ ?_
            rw [hs2, appendInstr_cur, appendInstr_store_cur, lastIsTerm_concat]
            rfl
          have hMb : (EmitBlock (s.nextId + 1) s2).blocks = s.blocks ++ [s.nextId + 1] := by
            rw [hMidEq]
            show s2.blocks ++ _ = _
            rw [hs2, appendInstr_blocks, hDb]
          have hMc : (EmitBlock (s.nextId + 1) s2).cur = s.nextId + 1 := by
            rw [hMidEq]
          have hMn : (EmitBlock (s.nextId + 1) s2).nextId = s.nextId + 3 := by
            rw [hMidEq]
            show s2.nextId = _
            rw [hs2, appendInstr_nextId, hDn]
          have hMl : (EmitBlock (s.nextId + 1) s2).labels = s.labels := by
            rw [hMidEq]
            show s2.labels = _
            rw [hs2, appendInstr_labels, hDl]
          have hMsCont : (EmitBlock (s.nextId + 1) s2).store s.nextId = ⟨"ifend", []⟩ := by
            rw [hMidEq]
            show s2.store s.nextId = _
            rw [hs2, appendInstr_store_ne sD _ s.nextId (by rw [hDc]; omega)]
            exact hDsCont
          have hMsThen : (EmitBlock (s.nextId + 1) s2).store (s.nextId + 1) =
              ⟨"ifthen", []⟩ := by
            rw [hMidEq]
            show s2.store (s.nextId + 1) = _
            rw [hs2, appendInstr_store_ne sD _ (s.nextId + 1) (by rw [hDc]; omega)]
            exact hDsThen
          have hMsElse : (EmitBlock (s.nextId + 1) s2).store (s.nextId + 2) =
              ⟨"ifelse", []⟩ := by
            rw [hMidEq]
            show s2.store (s.nextId + 2) = _
            rw [hs2, appendInstr_store_ne sD _ (s.nextId + 2) (by rw [hDc]; omega)]
            exact hDsElse
          have hMsCur : (EmitBlock (s.nextId + 1) s2).store s.cur =
              { s.store s.cur with instrs := (s.store s.cur).instrs ++
                  [.eval c.payload, .condbr c.payload (s.nextId + 1) (s.nextId + 2)] } := by
            rw [hMidEq]
            show s2.store s.cur = _
            rw [hs2, appendInstr_store]
            rw [hDc, if_pos rfl, hDsCur]
            simp
          have hndT : (stmtDefs t).Nodup := by
            simp only [stmtDefs] at hnd
            exact (List.nodup_append.mp hnd).1
          have hndE : (stmtDefs e2).Nodup := by
            simp only [stmtDefs] at hnd
            exact (List.nodup_append.mp hnd).2.1
          have hdisjTE : ∀ a, a ∈ stmtDefs t → a ∈ stmtDefs e2 → False := by
            simp only [stmtDefs] at hnd
            exact fun a h1 h2 => (List.nodup_append.mp hnd).2.2 h1 h2
          have hfT : LabelsFresh (stmtDefs t) (EmitBlock (s.nextId + 1) s2) := by
            refine LabelsFresh.step ?_ hpMid (fun l2 h2 => by simp)
            exact LabelsFresh.mono (fun l2 h2 => by simp [stmtDefs, h2]) hf
          have hpT := emitStmt_post t (EmitBlock (s.nextId + 1) s2) sT hpMid.inv hndT hfT hT
          have hpToT : CGPost s sT (stmtDefs t) := hpMid.trans hpT
          have hplacedCurT := hpT.placed s.cur
            (by rw [hMb]; simp [hI.curIn]) (by rw [hMc]; omega)
          have helseT := hpT.unplaced (s.nextId + 2)
            (by
              rw [hMb]
              simp only [List.mem_append, List.mem_singleton]
              rintro (hc | hc)
              · have := hI.blocksLt _ hc
                omega
              · omega)
            (by rw [hMn]; omega)
            (by
              rw [hMl]
              intro l2 hc
              have := hI.labelsLt l2 _ hc
              omega)
          have hcontT := hpT.unplaced s.nextId
            (by
              rw [hMb]
              simp only [List.mem_append, List.mem_singleton]
              rintro (hc | hc)
              · have := hI.blocksLt _ hc
                omega
              · omega)
            (by rw [hMn]; omega)
            (by
              rw [hMl]
              intro l2 hc
              have := hI.labelsLt l2 _ hc
              omega)
          have hnotElseTcur : s.nextId + 2 ≠ sT.cur :=
            fun he => helseT.1 (he ▸ hpT.inv.curIn)
          have hnotContTcur : s.nextId ≠ sT.cur :=
            fun he => hcontT.1 (he ▸ hpT.inv.curIn)
          have hMid2Eq : EmitBlock (s.nextId + 2) (sT.appendInstr (.br s.nextId)) =
              { sT.appendInstr (.br s.nextId) with
                blocks := (sT.appendInstr (.br s.nextId)).blocks ++ [s.nextId + 2],
                cur := s.nextId + 2 } := by
            refine EmitBlock_of_term _ _ ?_
            rw [appendInstr_cur, appendInstr_store_cur, lastIsTerm_concat]
            rfl
          have hM2c : (EmitBlock (s.nextId + 2) (sT.appendInstr (.br s.nextId))).cur =
              s.nextId + 2 := by
            rw [hMid2Eq]
          have hM2sElse : (EmitBlock (s.nextId + 2) (sT.appendInstr (.br s.nextId))).store
              (s.nextId + 2) = ⟨"ifelse", []⟩ := by
            rw [hMid2Eq]
            show (sT.appendInstr (.br s.nextId)).store (s.nextId + 2) = _
            rw [appendInstr_store_ne sT _ _ hnotElseTcur]
            rw [helseT.2.1, hMsElse]
          have hM2n : (EmitBlock (s.nextId + 2) (sT.appendInstr (.br s.nextId))).nextId =
              sT.nextId := by
            rw [hMid2Eq]
            show (sT.appendInstr (.br s.nextId)).nextId = _
            rw [appendInstr_nextId]
          have hM2b : (EmitBlock (s.nextId + 2) (sT.appendInstr (.br s.nextId))).blocks =
              sT.blocks ++ [s.nextId + 2] := by
            rw [hMid2Eq]
            show (sT.appendInstr (.br s.nextId)).blocks ++ _ = _
            rw [appendInstr_blocks]
          have hM2l : (EmitBlock (s.nextId + 2) (sT.appendInstr (.br s.nextId))).labels =
              sT.labels := by
            rw [hMid2Eq]
            show (sT.appendInstr (.br s.nextId)).labels = _
            rw [appendInstr_labels]
          have hM2sCont : (EmitBlock (s.nextId + 2) (sT.appendInstr (.br s.nextId))).store
              s.nextId = ⟨"ifend", []⟩ := by
            rw [hMid2Eq]
            show (sT.appendInstr (.br s.nextId)).store s.nextId = _
            rw [appendInstr_store_ne sT _ _ hnotContTcur]
            rw [hcontT.2.1, hMsCont]
          have hM2sTcur : (EmitBlock (s.nextId + 2) (sT.appendInstr (.br s.nextId))).store
              sT.cur = { sT.store sT.cur with
                instrs := (sT.store sT.cur).instrs ++ [.br s.nextId] } := by
            rw [hMid2Eq]
            show (sT.appendInstr (.br s.nextId)).store sT.cur = _
            rw [appendInstr_store_cur]
          have hM2sCur : (EmitBlock (s.nextId + 2) (sT.appendInstr (.br s.nextId))).store
              s.cur = sT.store s.cur := by
            rw [hMid2Eq]
            show (sT.appendInstr (.br s.nextId)).store s.cur = _
            rw [appendInstr_store_ne sT _ s.cur (fun he => hplacedCurT.2.2 he.symm)]
          have hpMid2 : CGPost s (EmitBlock (s.nextId + 2) (sT.appendInstr (.br s.nextId)))
              (stmtDefs t) := by
            refine CGPost.glue_termPlace hpToT (s.nextId + 2) _ (by omega) helseT.1 ?_ ?_
              helseT.2.2
            · have h2 := hpT.mono
              rw [hMn] at h2
              omega
            · rw [helseT.2.1, hMsElse]
              rfl
          cases hE : EmitStmt e2 (EmitBlock (s.nextId + 2) (sT.appendInstr (.br s.nextId))) with
          | error er =>
              rw [hE] at h
              exact Except.noConfusion h
          | ok sE =>
              rw [hE] at h
              simp only [Except.ok.injEq] at h
              have hfE : LabelsFresh (stmtDefs e2)
                  (EmitBlock (s.nextId + 2) (sT.appendInstr (.br s.nextId))) := by
                refine LabelsFresh.step ?_ hpMid2 ?_
                · exact LabelsFresh.mono (fun l2 h2 => by simp [stmtDefs, h2]) hf
                · intro l2 h2 hc
                  exact hdisjTE l2 hc h2
              have hpE := emitStmt_post e2
                (EmitBlock (s.nextId + 2) (sT.appendInstr (.br s.nextId)))
                sE hpMid2.inv hndE hfE hE
              have hplacedCurE := hpE.placed s.cur
                (by
                  rw [hM2b]
                  simp [hplacedCurT.1])
                (by rw [hM2c]; omega)
              have hplacedTcurE := hpE.placed sT.cur
                (by
                  rw [hM2b]
                  simp [hpT.inv.curIn])
                (by rw [hM2c]; exact fun he => hnotElseTcur he.symm)
              have hcontE := hpE.unplaced s.nextId
                (by
                  rw [hM2b]
                  simp only [List.mem_append, List.mem_singleton]
                  rintro (hc | hc)
                  · exact hcontT.1 hc
                  · omega)
                (by
                  rw [hM2n]
                  have h2 := hpT.mono
                  rw [hMn] at h2
                  omega)
                (by
                  rw [hM2l]
                  exact hcontT.2.2)
              have hnotContEcur : s.nextId ≠ sE.cur :=
                fun he => hcontE.1 (he ▸ hpE.inv.curIn)
              have hfinEq : EmitBlock s.nextId (sE.appendInstr (.br s.nextId)) =
                  { sE.appendInstr (.br s.nextId) with
                    blocks := (sE.appendInstr (.br s.nextId)).blocks ++ [s.nextId],
                    cur := s.nextId } := by
                refine EmitBlock_of_term _ _ ?_
                rw [appendInstr_cur, appendInstr_store_cur, lastIsTerm_concat]
                rfl
              rw [← h, hfinEq]
              refine ⟨?_,
                ⟨EmitBlock (s.nextId + 1) s2, sT, hMc, hMsThen, ?_, hT, ?_, ?_⟩,
                ?_, rfl, ?_, ?_⟩
              · show ((sE.appendInstr (.br s.nextId)).store s.cur).instrs = _
                rw [appendInstr_store_ne sE _ s.cur (fun he => hplacedCurE.2.2 he.symm)]
                rw [hplacedCurE.2.1, hM2sCur, hplacedCurT.2.1, hMsCur]
                simp
              · rw [hMn]
                simp
              · show ((sE.appendInstr (.br s.nextId)).store sT.cur).instrs = _
                rw [appendInstr_store_ne sE _ sT.cur (fun he => hplacedTcurE.2.2 he.symm)]
                rw [hplacedTcurE.2.1, hM2sTcur]
              · intro hc
                exact Option.noConfusion hc
              · intro e2x he
                cases he
                refine ⟨EmitBlock (s.nextId + 2) (sT.appendInstr (.br s.nextId)), sE,
                  hM2c, hM2sElse, hE, ?_, ?_⟩
                · show ((sE.appendInstr (.br s.nextId)).store sE.cur).instrs = _
                  rw [appendInstr_store_cur]
                · show (sE.appendInstr (.br s.nextId)).nextId = _
                  rw [appendInstr_nextId]
              · show s.nextId ∈ (sE.appendInstr (.br s.nextId)).blocks ++ [s.nextId]
                simp
              · show ((sE.appendInstr (.br s.nextId)).store s.nextId).name = _
                rw [appendInstr_store_ne sE _ s.nextId hnotContEcur]
                rw [hcontE.2.1, hM2sCont]

theorem c4_if_lowering_witness :
    ((theOk (EmitStmt (.ifS ⟨true, 1⟩ .null (some .null)) (initState true true))
        (initState true true)).store 0).instrs = [.eval 1, .condbr 1 2 3]
    ∧ (theOk (EmitStmt (.ifS ⟨true, 1⟩ .null (some .null)) (initState true true))
        (initState true true)).cur = 1
    ∧ (1 : Nat) ∈ (theOk (EmitStmt (.ifS ⟨true, 1⟩ .null (some .null)) (initState true true))
        (initState true true)).blocks
    ∧ ((theOk (EmitStmt (.ifS ⟨true, 1⟩ .null (some .null)) (initState true true))
        (initState true true)).store 1).name = "ifend" := by
  have h := c4_if_lowering (initState true true)
    (theOk (EmitStmt (.ifS ⟨true, 1⟩ .null (some .null)) (initState true true))
      (initState true true))
    ⟨true, 1⟩ .null (some .null)
    (cgInv_init true true) (by decide) (labelsFresh_init _ true true) rfl
  exact ⟨by decide, h.2.2.2.1, h.2.2.2.2.1, h.2.2.2.2.2⟩
